import Mathlib

/-!
Verification development for the heading-numbering plugin core
(src/numbering.ts and src/frontMatter.ts).

The TypeScript sources are shallowly embedded below.  A document is a list
of lines; the Obsidian editor accessor (getLine / getRange / transaction)
is modelled over that list.  The two JavaScript regular expressions of
numbering.ts are compiled by hand into deterministic scanners; every place
where regex backtracking could in principle matter is annotated with the
argument showing which branch the JavaScript engine takes.
-/

namespace NumberHeadings

/-- Characters accepted by the JavaScript whitespace class (backslash-s) and by
String.prototype.trim / trimLeft / trimStart, restricted to ASCII; the exotic
Unicode space characters never occur in the documents the claims quantify
over, so they are omitted from the model. -/
def isJsWs (c : Char) : Bool :=
  c = ' ' || c = '\t' || c = '\n' || c = '\r' || c = '\x0b' || c = '\x0c'

/-- The regex character class [0-9]: code points 48 to 57. -/
def isDigitChar (c : Char) : Bool := 48 ≤ c.toNat && c.toNat ≤ 57

/-- The regex character class [A-Z]: code points 65 to 90. -/
def isUpperChar (c : Char) : Bool := 65 ≤ c.toNat && c.toNat ≤ 90

/-- The regex character class [:.-] (terminal punctuation of a numbering). -/
def isSepChar (c : Char) : Bool := c = ':' || c = '.' || c = '-'

/-- JavaScript String.prototype.trim. -/
def trimJs (s : String) : String :=
  String.mk (((s.data.dropWhile isJsWs).reverse.dropWhile isJsWs).reverse)

/-- JavaScript String.prototype.trimLeft / trimStart. -/
def trimLeftJs (s : String) : String :=
  String.mk (s.data.dropWhile isJsWs)

/-- An EditorPosition of the Obsidian API: line and character offset. -/
structure EditorPosition where
  line : Nat
  ch : Nat
deriving DecidableEq, Repr

/-- An EditorRange: the source fields are called from and to; from is a
reserved word in Lean so the fields are named fromPos and toPos. -/
structure EditorRange where
  fromPos : EditorPosition
  toPos : EditorPosition
deriving DecidableEq, Repr

/-- An EditorChange: a replacement text together with the replaced range. -/
structure EditChange where
  text : String
  fromPos : EditorPosition
  toPos : EditorPosition
deriving DecidableEq, Repr

/-- A HeadingCache entry: nesting level, display text and the line of the
heading (position.start.line is the only position field the core reads). -/
structure Heading where
  level : Nat
  heading : String
  line : Nat
deriving DecidableEq, Repr

/-- The NumberHeadingsPluginSettings record (settingsTypes.ts). -/
structure PluginSettings where
  auto : Bool
  firstLevel : Nat
  maxLevel : Nat
  contents : String
  startAt : String
  skipTopLevel : Bool
  styleLevel1 : String
  styleLevelOther : String
  separator : String
deriving DecidableEq, Repr

/-- A document as seen through the editor accessor: the list of its lines. -/
abbrev Doc := List String

/-- editor.getLine: some line when the index is in range. -/
def getLine (doc : Doc) (i : Nat) : Option String := doc.get? i

/-- The line at an index, with the empty string off the end (only used in
positions where the index is known to be in range). -/
def lineAt (doc : Doc) (i : Nat) : String := (doc.get? i).getD ""

/-- editor.getRange between two positions, with newline separators between
lines, as the Obsidian accessor produces it. -/
def getRange (doc : Doc) (p q : EditorPosition) : String :=
  if p.line = q.line then
    String.mk (((lineAt doc p.line).data.drop p.ch).take (q.ch - p.ch))
  else
    String.mk ((lineAt doc p.line).data.drop p.ch) ++ "\n"
      ++ String.join (((doc.drop (p.line + 1)).take (q.line - p.line - 1)).map (fun l => l ++ "\n"))
      ++ String.mk ((lineAt doc q.line).data.take q.ch)

/-!
The marker-only regex of makeHeadingHashString:

    ^\s 0-4 times, then #+            (global flag)

The pattern is anchored and cannot match the empty string, so with the
global flag String.match returns either null or a one-element array; the
branch of makeHeadingHashString for matches.length different from one is
unreachable.  Backtracking is also degenerate: the whitespace class and
the marker character are disjoint, so the 0-4 whitespace repetitions can
only succeed by taking the whole leading whitespace run (if it is at most
4 long), and the #+ run is maximal.
-/

/-- Length of the match of the marker-only pattern at the start of the line,
none when the pattern does not match. -/
def markerLen (cs : List Char) : Option Nat :=
  let w := (cs.takeWhile isJsWs).length
  if w > 4 then none
  else
    let hs := ((cs.drop w).takeWhile (fun c => c = '#')).length
    if hs = 0 then none else some (w + hs)

/-- The hash run of a line: the marker-only match with its leading
whitespace trimmed away (match.trimLeft in makeHeadingHashString). -/
def hashOfLine (s : String) : String :=
  String.mk ((s.data.dropWhile isJsWs).takeWhile (fun c => c = '#'))

/-- makeHeadingHashString: fails when the heading line is missing or empty
(JavaScript falsiness) or when the marker-only pattern does not match. -/
def makeHeadingHashString (doc : Doc) (heading : Heading) : Option String :=
  match getLine doc heading.line with
  | none => none
  | some s =>
    if s = "" then none
    else
      match markerLen s.data with
      | none => none
      | some n => some (trimLeftJs (String.mk (s.data.take n)))

/-!
The full-prefix regex of getHeadingPrefixRange:

    ^\s 0-4 times, #+, one optional space,
    zero or more groups of (digits dot | one capital dot),
    an optional trailing token (digits | one capital),
    optional punctuation [:.-], one or more spaces        (global flag)

Again the pattern is anchored and cannot match the empty string (the final
spaces are mandatory), so String.match yields null or exactly one match
and the length check in getHeadingPrefixRange is unreachable.

The scanner below hand-compiles the backtracking search of the JavaScript
engine into a deterministic function.  The individual pieces:

  - the 0-4 whitespace repetitions and the #+ run behave as in markerLen
    (giving back characters never helps, because no later element of the
    pattern can begin with a whitespace character or a marker character
    respectively when the greedy continuation failed on one);
  - inside the group (digits dot), giving back digits never helps: the
    character after a shorter digit run is a digit, not a dot, so only the
    maximal digit run can be followed by the dot;
  - inside the trailing token, giving back digits never helps for the same
    reason (the following elements accept punctuation or space, never a
    digit);
  - the alternation is ordered as in the pattern, and the optional pieces
    try the consuming alternative first, falling back to the empty one,
    which is exactly the JavaScript order of exploration.
-/

/-- The final mandatory space run: one or more literal spaces, greedy.
Nothing follows it in the pattern, so the maximal run is the answer. -/
def spacesPlus (cs : List Char) : Option Nat :=
  let n := (cs.takeWhile (fun c => c = ' ')).length
  if n = 0 then none else some n

/-- Optional terminal punctuation, then the mandatory spaces: the pattern
piece [:.-]? followed by one or more spaces.  The consuming alternative is
tried first, then the empty one, in engine order. -/
def tailPunct (cs : List Char) : Option Nat :=
  match cs with
  | [] => none
  | c :: rest =>
    if isSepChar c then
      match spacesPlus rest with
      | some n => some (n + 1)
      | none => spacesPlus cs
    else spacesPlus cs

/-- The optional trailing token (digits | one capital), then tailPunct.
When the input starts with a digit only the maximal digit run can work
(see the backtracking notes above), so the fallback alternatives are not
materialised in that branch. -/
def tailToken (cs : List Char) : Option Nat :=
  let ds := cs.takeWhile isDigitChar
  if ds.length ≠ 0 then
    (tailPunct (cs.drop ds.length)).map (fun n => n + ds.length)
  else
    match cs with
    | c :: rest =>
      if isUpperChar c then
        match tailPunct rest with
        | some n => some (n + 1)
        | none => tailPunct cs
      else tailPunct cs
    | [] => none

/-- One iteration of the starred group (digits dot | one capital dot).
Returns the number of characters consumed.  Deterministic: the two
alternatives look at disjoint first characters, and inside the first one
only the maximal digit run can precede the dot. -/
def matchGroup (cs : List Char) : Option Nat :=
  let ds := cs.takeWhile isDigitChar
  if ds.length ≠ 0 then
    if (cs.drop ds.length).head? = some '.' then some (ds.length + 1) else none
  else
    match cs with
    | c1 :: c2 :: _ => if isUpperChar c1 && c2 = '.' then some 2 else none
    | _ => none

/-- The starred group followed by the rest of the tail, with the greedy
iteration order of the engine: try another iteration first, fall back to
stopping the star here.  Fuel-indexed so that the definition reduces by
iota; every iteration consumes at least two characters, so fuel equal to
the length of the input is always sufficient (tailStar below). -/
def tailStarF : Nat → List Char → Option Nat
  | 0, cs => tailToken cs
  | fuel + 1, cs =>
    match matchGroup cs with
    | some k =>
      match tailStarF fuel (cs.drop k) with
      | some n => some (k + n)
      | none => tailToken cs
    | none => tailToken cs

/-- The starred group followed by the trailing token, punctuation and
spaces, at adequate fuel. -/
def tailStar (cs : List Char) : Option Nat :=
  tailStarF cs.length cs

/-- The optional single space right after the marker run, then tailStar:
the consuming alternative first, then the empty one. -/
def tailAfterHash (cs : List Char) : Option Nat :=
  match cs with
  | ' ' :: rest =>
    match tailStar rest with
    | some n => some (n + 1)
    | none => tailStar cs
  | _ => tailStar cs

/-- Length of the match of the full numbering pattern at the start of the
line, none when there is no match. -/
def fullMatchLen (cs : List Char) : Option Nat :=
  let w := (cs.takeWhile isJsWs).length
  if w > 4 then none
  else
    let hs := ((cs.drop w).takeWhile (fun c => c = '#')).length
    if hs = 0 then none
    else (tailAfterHash (cs.drop (w + hs))).map (fun n => n + (w + hs))

/-- getHeadingPrefixRange: undefined only when the heading line is missing
or empty; when the pattern does not match, the matched text is taken to be
the empty string and the returned range is the empty range at column 0. -/
def getHeadingPrefixRange (doc : Doc) (heading : Heading) : Option EditorRange :=
  match getLine doc heading.line with
  | none => none
  | some s =>
    if s = "" then none
    else
      let matchLen := (fullMatchLen s.data).getD 0
      some ⟨⟨heading.line, 0⟩, ⟨heading.line, matchLen⟩⟩

/-- A NumberingToken: the TypeScript union string | number.  The numeric
side is an integer (all values the program produces are integral). -/
inductive NumberingToken where
  | num (n : Int)
  | str (s : String)
deriving DecidableEq, Repr

/-- NumberingToken.toString as used in makeNumberingString: decimal
rendering for numbers, identity for strings. -/
def tokenToString : NumberingToken → String
  | .num n => toString n
  | .str s => s

/-- zerothNumberingTokenInStyle. -/
def zerothNumberingTokenInStyle (style : String) : NumberingToken :=
  if style = "1" then .num 0
  else if style = "A" then .str "Z"
  else .num 0

/-- firstNumberingTokenInStyle. -/
def firstNumberingTokenInStyle (style : String) : NumberingToken :=
  if style = "1" then .num 1
  else if style = "A" then .str "A"
  else .num 1

/-- nextNumberingToken: numbers increment; the string "Z" wraps to "A";
any other string is replaced by the character after its first UTF-16 unit
(String.fromCharCode of charCodeAt 0 plus one; for the empty string the
char code is NaN and fromCharCode yields the null character). -/
def nextNumberingToken : NumberingToken → NumberingToken
  | .num n => .num (n + 1)
  | .str s =>
    if s = "Z" then .str "A"
    else
      match s.data.head? with
      | none => .str (String.singleton (Char.ofNat 0))
      | some c => .str (String.singleton (Char.ofNat (c.toNat + 1)))

/-- makeNumberingString: a leading space before the first token, a dot
before every later one. -/
def makeNumberingString (numberingStack : List NumberingToken) : String :=
  match numberingStack with
  | [] => ""
  | t :: ts =>
    " " ++ tokenToString t ++ String.join (ts.map (fun u => "." ++ tokenToString u))

/-- replaceRangeSafely: push the change only when the replacement differs
from the current text of the range. -/
def replaceRangeSafely (doc : Doc) (changes : List EditChange)
    (range : EditorRange) (text : String) : List EditChange :=
  let previousText := getRange doc range.fromPos range.toPos
  if previousText ≠ text then
    changes ++ [⟨text, range.fromPos, range.toPos⟩]
  else changes

/-- The exclusion test of the numbering engine: skipped top level, or
deeper than the maximum level. -/
def excludedB (settings : PluginSettings) (level : Nat) : Bool :=
  (settings.skipTopLevel && level == 1) || settings.maxLevel < level

/-- The array pop followed by the conditional push of the incremented
token: a pop on an empty stack yields undefined and nothing is pushed. -/
def popPushNext (stack : List NumberingToken) : List NumberingToken :=
  match stack.getLast? with
  | none => stack
  | some x => stack.dropLast ++ [nextNumberingToken x]

/-- The stack adjustment of the engine (the three level comparisons). -/
def adjustStack (settings : PluginSettings) (previousLevel level : Nat)
    (stack : List NumberingToken) : List NumberingToken :=
  if level = previousLevel then popPushNext stack
  else if level < previousLevel then
    popPushNext (stack.take (stack.length - (previousLevel - level)))
  else
    stack ++ List.replicate (level - previousLevel)
      (firstNumberingTokenInStyle settings.styleLevelOther)

/-- The loop state of updateHeadingNumbering. -/
structure EngineState where
  previousLevel : Nat
  numberingStack : List NumberingToken
  changes : List EditChange
deriving Repr

/-- The body of the per-heading loop of updateHeadingNumbering.  none is
the early return of the TypeScript function (the whole operation aborts
and no transaction is executed); some is a continue. -/
def updateStep (doc : Doc) (settings : PluginSettings)
    (st : EngineState) (heading : Heading) : Option EngineState :=
  let level := heading.level
  if excludedB settings level then
    match getHeadingPrefixRange doc heading with
    | none => some st
    | some prefixRange =>
      match makeHeadingHashString doc heading with
      | none => some st
      | some headingHashString =>
        some { st with
          changes := replaceRangeSafely doc st.changes prefixRange (headingHashString ++ " ") }
  else
    let stack1 := adjustStack settings st.previousLevel level st.numberingStack
    if settings.maxLevel < level then
      some { previousLevel := level, numberingStack := stack1, changes := st.changes }
    else
      match getHeadingPrefixRange doc heading with
      | none => none
      | some prefixRange =>
        match makeHeadingHashString doc heading with
        | none => none
        | some headingHashString =>
          let prefixString := makeNumberingString stack1
          some { previousLevel := level, numberingStack := stack1,
                 changes := replaceRangeSafely doc st.changes prefixRange
                   (headingHashString ++ prefixString ++ settings.separator ++ " ") }

/-- The initial loop state of updateHeadingNumbering. -/
def initState (settings : PluginSettings) : EngineState :=
  { previousLevel := if settings.skipTopLevel then 2 else 1
    numberingStack := [zerothNumberingTokenInStyle settings.styleLevel1]
    changes := [] }

/-- updateHeadingNumbering, modelled as the list of changes its single
transaction would apply: none when the function returned early (in which
case the changes gathered so far are discarded and nothing is applied). -/
def updateHeadingNumberingChanges (doc : Doc) (headings : List Heading)
    (settings : PluginSettings) : Option (List EditChange) :=
  (headings.foldlM (updateStep doc settings) (initState settings)).map
    (fun st => st.changes)

/-- The body of the per-heading loop of removeHeadingNumbering; none is
again the aborting early return. -/
def removeStep (doc : Doc) (changes : List EditChange) (heading : Heading) :
    Option (List EditChange) :=
  match getHeadingPrefixRange doc heading with
  | none => none
  | some prefixRange =>
    match makeHeadingHashString doc heading with
    | none => none
    | some headingHashString =>
      some (replaceRangeSafely doc changes prefixRange (headingHashString ++ " "))

/-- removeHeadingNumbering, as the list of changes of its transaction. -/
def removeHeadingNumberingChanges (doc : Doc) (headings : List Heading) :
    Option (List EditChange) :=
  headings.foldlM (removeStep doc) []

/-- Modelled from the spec: the external document accessor applies a batch
of line-range replacements.  All changes the numbering engine emits lie
inside a single line, and that is the only case the round-trip claims
apply; a change whose range spans lines is left to the caller (identity
here). -/
def applyChange (doc : Doc) (c : EditChange) : Doc :=
  if c.fromPos.line = c.toPos.line then
    doc.set c.fromPos.line
      (String.mk ((lineAt doc c.fromPos.line).data.take c.fromPos.ch
        ++ c.text.data
        ++ (lineAt doc c.fromPos.line).data.drop c.toPos.ch))
  else doc

/-- Applying a whole edit batch. -/
def applyChanges (doc : Doc) (cs : List EditChange) : Doc :=
  cs.foldl applyChange doc

/-! Basic facts about the scanning helpers. -/

theorem takeWhile_all_head (p : Char → Bool) (xs ys : List Char)
    (h1 : ∀ a ∈ xs, p a = true) (h2 : ∀ b ∈ ys.head?, p b = false) :
    (xs ++ ys).takeWhile p = xs := by
  induction xs with
  | nil =>
    cases ys with
    | nil => rfl
    | cons b t =>
      have hb := h2 b (by simp)
      simp [List.takeWhile_cons, hb]
  | cons a t ih =>
    have ha := h1 a (by simp)
    simp only [List.cons_append, List.takeWhile_cons, ha]
    have ht := ih (fun x hx => h1 x (by simp [hx]))
    simp [ht]

theorem dropWhile_all_head (p : Char → Bool) (xs ys : List Char)
    (h1 : ∀ a ∈ xs, p a = true) (h2 : ∀ b ∈ ys.head?, p b = false) :
    (xs ++ ys).dropWhile p = ys := by
  induction xs with
  | nil =>
    cases ys with
    | nil => rfl
    | cons b t =>
      have hb := h2 b (by simp)
      simp [List.dropWhile_cons, hb]
  | cons a t ih =>
    have ha := h1 a (by simp)
    simp only [List.cons_append, List.dropWhile_cons, ha]
    exact ih (fun x hx => h1 x (by simp [hx]))

theorem head?_dropWhile_false (p : Char → Bool) (l : List Char) (b : Char)
    (h : (l.dropWhile p).head? = some b) : p b = false := by
  have hd := List.head?_dropWhile_not p l
  rw [h] at hd
  exact hd

theorem drop_takeWhile_len (p : Char → Bool) (l : List Char) :
    l.drop (l.takeWhile p).length = l.dropWhile p := by
  have h : l.takeWhile p ++ l.dropWhile p = l := List.takeWhile_append_dropWhile p l
  calc l.drop (l.takeWhile p).length
      = (l.takeWhile p ++ l.dropWhile p).drop (l.takeWhile p).length := by rw [h]
    _ = l.dropWhile p := List.drop_left _ _

theorem upper_not_digit (c : Char) (h : isUpperChar c = true) : isDigitChar c = false := by
  simp only [isUpperChar, Bool.and_eq_true, decide_eq_true_eq] at h
  simp only [isDigitChar, Bool.and_eq_false_iff, decide_eq_false_iff_not]
  omega

theorem digit_ne (c : Char) (h : isDigitChar c = true) (d : Char)
    (hd : d.toNat < 48 ∨ 57 < d.toNat) : c ≠ d := by
  simp only [isDigitChar, Bool.and_eq_true, decide_eq_true_eq] at h
  intro hc
  subst hc
  omega

theorem upper_ne (c : Char) (h : isUpperChar c = true) (d : Char)
    (hd : d.toNat < 65 ∨ 90 < d.toNat) : c ≠ d := by
  simp only [isUpperChar, Bool.and_eq_true, decide_eq_true_eq] at h
  intro hc
  subst hc
  omega

theorem digit_not_ws (c : Char) (h : isDigitChar c = true) : isJsWs c = false := by
  have h1 := digit_ne c h ' ' (by decide)
  have h2 := digit_ne c h '\t' (by decide)
  have h3 := digit_ne c h '\n' (by decide)
  have h4 := digit_ne c h '\r' (by decide)
  have h5 := digit_ne c h '\x0b' (by decide)
  have h6 := digit_ne c h '\x0c' (by decide)
  simp [isJsWs, h1, h2, h3, h4, h5, h6]

theorem digit_not_sep (c : Char) (h : isDigitChar c = true) : isSepChar c = false := by
  have h1 := digit_ne c h ':' (by decide)
  have h2 := digit_ne c h '.' (by decide)
  have h3 := digit_ne c h '-' (by decide)
  simp [isSepChar, h1, h2, h3]

theorem upper_not_ws (c : Char) (h : isUpperChar c = true) : isJsWs c = false := by
  have h1 := upper_ne c h ' ' (by decide)
  have h2 := upper_ne c h '\t' (by decide)
  have h3 := upper_ne c h '\n' (by decide)
  have h4 := upper_ne c h '\r' (by decide)
  have h5 := upper_ne c h '\x0b' (by decide)
  have h6 := upper_ne c h '\x0c' (by decide)
  simp [isJsWs, h1, h2, h3, h4, h5, h6]

theorem upper_not_sep (c : Char) (h : isUpperChar c = true) : isSepChar c = false := by
  have h1 := upper_ne c h ':' (by decide)
  have h2 := upper_ne c h '.' (by decide)
  have h3 := upper_ne c h '-' (by decide)
  simp [isSepChar, h1, h2, h3]

/-! The spacesPlus piece. -/

theorem spacesPlus_space (rest : List Char) :
    spacesPlus (' ' :: rest) = some (1 + (rest.takeWhile (fun c => c = ' ')).length) := by
  simp only [spacesPlus, List.takeWhile_cons]
  norm_num [Nat.add_comm]

theorem spacesPlus_resid (cs : List Char) (n : Nat) (h : spacesPlus cs = some n) :
    (cs.drop n).head? ≠ some ' ' := by
  simp only [spacesPlus] at h
  split at h
  · exact absurd h (by simp)
  · cases h
    rw [drop_takeWhile_len]
    intro hx
    have := head?_dropWhile_false _ _ _ hx
    simp at this

theorem spacesPlus_le (cs : List Char) (n : Nat) (h : spacesPlus cs = some n) :
    n ≤ cs.length := by
  simp only [spacesPlus] at h
  split at h
  · exact absurd h (by simp)
  · cases h
    exact (List.takeWhile_prefix _).length_le

/-! Facts about tailPunct and tailToken. -/

theorem tailPunct_space (rest : List Char) :
    tailPunct (' ' :: rest) = some (1 + (rest.takeWhile (fun c => c = ' ')).length) := by
  have hs : isSepChar ' ' = false := by decide
  simp [tailPunct, hs, spacesPlus_space rest]

theorem tailPunct_sep_space (c : Char) (hc : isSepChar c = true) (rest : List Char) :
    tailPunct (c :: ' ' :: rest) = some (2 + (rest.takeWhile (fun c => c = ' ')).length) := by
  simp only [tailPunct, hc, if_true, spacesPlus_space rest, Option.some.injEq]
  omega

theorem tailPunct_resid (cs : List Char) (n : Nat) (h : tailPunct cs = some n) :
    (cs.drop n).head? ≠ some ' ' := by
  cases cs with
  | nil => simp [tailPunct] at h
  | cons c rest =>
    simp only [tailPunct] at h
    split at h
    · cases hsp : spacesPlus rest with
      | some m =>
        rw [hsp] at h
        cases h
        simpa using spacesPlus_resid rest m hsp
      | none =>
        rw [hsp] at h
        exact spacesPlus_resid _ n h
    · exact spacesPlus_resid _ n h

theorem tailToken_space (rest : List Char) :
    tailToken (' ' :: rest) = some (1 + (rest.takeWhile (fun c => c = ' ')).length) := by
  have h1 : isDigitChar ' ' = false := by decide
  have h2 : isUpperChar ' ' = false := by decide
  simp [tailToken, List.takeWhile_cons, h1, h2, tailPunct_space rest]

theorem tailToken_resid (cs : List Char) (n : Nat) (h : tailToken cs = some n) :
    (cs.drop n).head? ≠ some ' ' := by
  simp only [tailToken] at h
  split at h
  · rw [Option.map_eq_some'] at h
    obtain ⟨m, hm, rfl⟩ := h
    have hr := tailPunct_resid _ m hm
    rw [List.drop_drop] at hr
    rw [Nat.add_comm m (cs.takeWhile isDigitChar).length]
    exact hr
  · match cs, h with
    | [], h => simp at h
    | c :: rest, h =>
      dsimp only at h
      split at h
      · cases hsp : tailPunct rest with
        | some m =>
          rw [hsp] at h
          cases h
          simpa using tailPunct_resid rest m hsp
        | none =>
          rw [hsp] at h
          exact tailPunct_resid _ n h
      · exact tailPunct_resid _ n h

/-! Facts about matchGroup. -/

theorem matchGroup_ge_two (cs : List Char) (k : Nat) (h : matchGroup cs = some k) :
    2 ≤ k ∧ k ≤ cs.length := by
  simp only [matchGroup] at h
  split at h
  · rename_i hds
    split at h
    · rename_i hdot
      cases h
      have hlen : (cs.takeWhile isDigitChar).length ≤ cs.length :=
        (List.takeWhile_prefix _).length_le
      have hne : cs.drop (cs.takeWhile isDigitChar).length ≠ [] := by
        intro he
        rw [he] at hdot
        simp at hdot
      have := List.length_drop ((cs.takeWhile isDigitChar).length) cs
      have hpos : 0 < (cs.drop (cs.takeWhile isDigitChar).length).length :=
        List.length_pos.mpr hne
      omega
    · simp at h
  · split at h
    · rename_i c1 c2 t
      split at h
      · cases h
        refine ⟨le_rfl, ?_⟩
        simp only [List.length_cons]
        omega
      · simp at h
    · simp at h

theorem matchGroup_space (rest : List Char) : matchGroup (' ' :: rest) = none := by
  cases rest with
  | nil => rfl
  | cons r rt => rfl

theorem matchGroup_upper_dot (c0 : Char) (h0 : isUpperChar c0 = true) (t : List Char) :
    matchGroup (c0 :: '.' :: t) = some 2 := by
  have hd : isDigitChar c0 = false := upper_not_digit c0 h0
  simp [matchGroup, List.takeWhile_cons, hd, h0]

theorem matchGroup_upper_notdot (c0 c2 : Char) (h0 : isUpperChar c0 = true)
    (h2 : c2 ≠ '.') (t : List Char) : matchGroup (c0 :: c2 :: t) = none := by
  have hd : isDigitChar c0 = false := upper_not_digit c0 h0
  simp [matchGroup, List.takeWhile_cons, hd, h2]

theorem matchGroup_digits_dot (tok : List Char) (h1 : tok ≠ [])
    (h2 : ∀ c ∈ tok, isDigitChar c = true) (t : List Char) :
    matchGroup (tok ++ '.' :: t) = some (tok.length + 1) := by
  have htw : (tok ++ '.' :: t).takeWhile isDigitChar = tok :=
    takeWhile_all_head _ _ _ h2 (by intro b hb; simp at hb; subst hb; decide)
  have hdr : (tok ++ '.' :: t).drop tok.length = '.' :: t := List.drop_left _ _
  simp only [matchGroup, htw, hdr]
  have : tok.length ≠ 0 := by
    intro he
    exact h1 (List.length_eq_zero.mp he)
  simp [this]

theorem matchGroup_digits_nodot (tok : List Char) (h1 : tok ≠ [])
    (h2 : ∀ c ∈ tok, isDigitChar c = true) (c : Char) (hc1 : isDigitChar c = false)
    (hc2 : c ≠ '.') (t : List Char) : matchGroup (tok ++ c :: t) = none := by
  have htw : (tok ++ c :: t).takeWhile isDigitChar = tok :=
    takeWhile_all_head _ _ _ h2 (by intro b hb; simp at hb; subst hb; exact hc1)
  have hdr : (tok ++ c :: t).drop tok.length = c :: t := List.drop_left _ _
  simp only [matchGroup, htw, hdr]
  have : tok.length ≠ 0 := by
    intro he
    exact h1 (List.length_eq_zero.mp he)
  simp [this, hc2]

/-! The fuel-indexed star: fuel congruence and the unfolding equation. -/

theorem tailStarF_congr : ∀ (f g : Nat) (cs : List Char), cs.length ≤ f → cs.length ≤ g →
    tailStarF f cs = tailStarF g cs := by
  intro f
  induction f with
  | zero =>
    intro g cs hf hg
    have : cs = [] := List.length_eq_zero.mp (Nat.le_zero.mp hf)
    subst this
    cases g with
    | zero => rfl
    | succ g' => rfl
  | succ f' ih =>
    intro g cs hf hg
    cases g with
    | zero =>
      have : cs = [] := List.length_eq_zero.mp (Nat.le_zero.mp hg)
      subst this
      rfl
    | succ g' =>
      cases hm : matchGroup cs with
      | none => simp only [tailStarF, hm]
      | some k =>
        obtain ⟨hk2, hkle⟩ := matchGroup_ge_two cs k hm
        have hlen : (cs.drop k).length ≤ f' := by
          rw [List.length_drop]
          omega
        have hleng : (cs.drop k).length ≤ g' := by
          rw [List.length_drop]
          omega
        simp only [tailStarF, hm]
        rw [ih g' (cs.drop k) hlen hleng]

theorem tailStar_eq (cs : List Char) :
    tailStar cs =
      match matchGroup cs with
      | some k =>
        (match tailStar (cs.drop k) with
         | some n => some (k + n)
         | none => tailToken cs)
      | none => tailToken cs := by
  cases hm : matchGroup cs with
  | none =>
    unfold tailStar
    cases hl : cs.length with
    | zero =>
      have hcs : cs = [] := List.length_eq_zero.mp hl
      subst hcs
      rfl
    | succ m => simp only [tailStarF, hm]
  | some k =>
    obtain ⟨hk2, hkle⟩ := matchGroup_ge_two cs k hm
    unfold tailStar
    cases hl : cs.length with
    | zero => omega
    | succ m =>
      simp only [tailStarF, hm]
      have hfm : (cs.drop k).length ≤ m := by
        rw [List.length_drop]
        omega
      rw [tailStarF_congr m (cs.drop k).length (cs.drop k) hfm le_rfl]

theorem tailStarF_resid : ∀ (f : Nat) (cs : List Char) (n : Nat),
    tailStarF f cs = some n → (cs.drop n).head? ≠ some ' ' := by
  intro f
  induction f with
  | zero =>
    intro cs n h
    exact tailToken_resid cs n h
  | succ f' ih =>
    intro cs n h
    cases hm : matchGroup cs with
    | none =>
      simp only [tailStarF, hm] at h
      exact tailToken_resid cs n h
    | some k =>
      simp only [tailStarF, hm] at h
      cases hrec : tailStarF f' (cs.drop k) with
      | some m =>
        simp only [hrec] at h
        cases h
        have hh := ih (cs.drop k) m hrec
        rwa [List.drop_drop] at hh
      | none =>
        simp only [hrec] at h
        exact tailToken_resid cs n h

theorem tailStar_resid (cs : List Char) (n : Nat) (h : tailStar cs = some n) :
    (cs.drop n).head? ≠ some ' ' :=
  tailStarF_resid cs.length cs n h

theorem tailAfterHash_resid (cs : List Char) (n : Nat) (h : tailAfterHash cs = some n) :
    (cs.drop n).head? ≠ some ' ' := by
  unfold tailAfterHash at h
  split at h
  · rename_i rest
    cases hts : tailStar rest with
    | some m =>
      rw [hts] at h
      cases h
      simpa using tailStar_resid rest m hts
    | none =>
      rw [hts] at h
      exact tailStar_resid _ n h
  · exact tailStar_resid _ n h

theorem fullMatchLen_resid (cs : List Char) (n : Nat) (h : fullMatchLen cs = some n) :
    (cs.drop n).head? ≠ some ' ' := by
  simp only [fullMatchLen] at h
  split at h
  · simp at h
  · split at h
    · simp at h
    · rw [Option.map_eq_some'] at h
      obtain ⟨m, hm, rfl⟩ := h
      have := tailAfterHash_resid _ m hm
      rwa [List.drop_drop, Nat.add_comm] at this

/-! Validity of the numbering tokens produced by the engine, and the shape
of their rendered text: a nonempty digit run, or a single capital. -/

def ValidToken : NumberingToken → Prop
  | .num n => 0 ≤ n
  | .str s => ∃ c, isUpperChar c = true ∧ s = String.singleton c

theorem singleton_data (c : Char) : (String.singleton c).data = [c] := by
  simp [String.singleton, String.push]

theorem digitChar_is_digit (d : Nat) (h : d < 10) : isDigitChar (Nat.digitChar d) = true := by
  unfold isDigitChar
  interval_cases d <;> decide

theorem toDigitsCore_spec : ∀ (fuel n : Nat) (ds : List Char), n < fuel →
    ∃ pre, pre ≠ [] ∧ (∀ c ∈ pre, isDigitChar c = true) ∧
      Nat.toDigitsCore 10 fuel n ds = pre ++ ds := by
  intro fuel
  induction fuel with
  | zero =>
    intro n ds h
    omega
  | succ f ih =>
    intro n ds h
    by_cases hz : n / 10 = 0
    · refine ⟨[Nat.digitChar (n % 10)], by simp, ?_, ?_⟩
      · intro c hc
        simp at hc
        subst hc
        exact digitChar_is_digit _ (Nat.mod_lt _ (by omega))
      · simp only [Nat.toDigitsCore, hz, if_true]
        rfl
    · have hn1 : 1 ≤ n := by
        by_contra hn
        push_neg at hn
        interval_cases n
        simp at hz
      have hlt : n / 10 < f := by
        have hd := Nat.div_lt_self (by omega : 0 < n) (by omega : 1 < 10)
        omega
      obtain ⟨pre, hne, hdig, heq⟩ := ih (n / 10) (Nat.digitChar (n % 10) :: ds) hlt
      refine ⟨pre ++ [Nat.digitChar (n % 10)], by simp, ?_, ?_⟩
      · intro c hc
        rcases List.mem_append.mp hc with h1 | h2
        · exact hdig c h1
        · simp at h2
          subst h2
          exact digitChar_is_digit _ (Nat.mod_lt _ (by omega))
      · simp only [Nat.toDigitsCore, hz, if_false, heq, List.append_assoc, List.cons_append,
          List.nil_append]

theorem natRepr_digits (n : Nat) :
    (Nat.repr n).data ≠ [] ∧ ∀ c ∈ (Nat.repr n).data, isDigitChar c = true := by
  obtain ⟨pre, hne, hdig, heq⟩ := toDigitsCore_spec (n + 1) n [] (by omega)
  have hdata : (Nat.repr n).data = pre := by
    show (Nat.toDigits 10 n).asString.data = pre
    unfold Nat.toDigits
    rw [heq]
    simp [List.asString]
  rw [hdata]
  exact ⟨hne, hdig⟩

theorem tokChars (t : NumberingToken) (hv : ValidToken t) :
    ((tokenToString t).data ≠ [] ∧ ∀ c ∈ (tokenToString t).data, isDigitChar c = true) ∨
    (∃ c, isUpperChar c = true ∧ (tokenToString t).data = [c]) := by
  cases t with
  | num n =>
    left
    have h0 : 0 ≤ n := hv
    obtain ⟨m, rfl⟩ := Int.eq_ofNat_of_zero_le h0
    have hrepr : tokenToString (NumberingToken.num (m : Int)) = Nat.repr m := rfl
    rw [hrepr]
    exact natRepr_digits m
  | str s =>
    right
    obtain ⟨c, hc, rfl⟩ := hv
    exact ⟨c, hc, singleton_data c⟩

theorem toNat_ofNat_le90 (k : Nat) (h : k ≤ 90) : (Char.ofNat k).toNat = k := by
  have hv : k.isValidChar := Or.inl (by omega)
  simp [Char.ofNat, Char.ofNatAux, Char.toNat, hv, BitVec.toNat_ofNatLt, UInt32.toNat]

theorem zeroth_valid (style : String) : ValidToken (zerothNumberingTokenInStyle style) := by
  unfold zerothNumberingTokenInStyle
  split
  · exact le_rfl
  · split
    · exact ⟨'Z', by decide, by decide⟩
    · exact le_rfl

theorem first_valid (style : String) : ValidToken (firstNumberingTokenInStyle style) := by
  unfold firstNumberingTokenInStyle
  split
  · show (0 : Int) ≤ 1
    omega
  · split
    · exact ⟨'A', by decide, by decide⟩
    · show (0 : Int) ≤ 1
      omega

theorem next_valid (t : NumberingToken) (h : ValidToken t) :
    ValidToken (nextNumberingToken t) := by
  cases t with
  | num n =>
    have h0 : (0 : Int) ≤ n := h
    show (0 : Int) ≤ n + 1
    omega
  | str s =>
    obtain ⟨c, hc, rfl⟩ := h
    simp only [nextNumberingToken]
    by_cases hz : String.singleton c = "Z"
    · rw [if_pos hz]
      exact ⟨'A', by decide, by decide⟩
    · rw [if_neg hz]
      rw [singleton_data]
      have hcz : c ≠ 'Z' := by
        intro he
        subst he
        exact hz rfl
      have hbound : 65 ≤ c.toNat ∧ c.toNat ≤ 90 := by
        simpa [isUpperChar, Bool.and_eq_true, decide_eq_true_eq] using hc
      have hne90 : c.toNat ≠ 90 := by
        intro he
        apply hcz
        have : Char.ofNat c.toNat = Char.ofNat 90 := by rw [he]
        rwa [Char.ofNat_toNat] at this
      refine ⟨Char.ofNat (c.toNat + 1), ?_, rfl⟩
      have ht : (Char.ofNat (c.toNat + 1)).toNat = c.toNat + 1 :=
        toNat_ofNat_le90 _ (by omega)
      simp only [isUpperChar, ht, Bool.and_eq_true, decide_eq_true_eq]
      omega

/-- The separators the full-prefix pattern recognises: the empty string or
one of the three accepted punctuation characters. -/
def SepOk (s : String) : Prop :=
  s = "" ∨ s = "." ∨ s = ":" ∨ s = "-"

/-- The characters of a dot-separated token tail. -/
def dotsChars : List NumberingToken → List Char
  | [] => []
  | t :: ts => '.' :: (tokenToString t).data ++ dotsChars ts

/-- The characters of a dot-joined token list (no leading space). -/
def tokensChars : List NumberingToken → List Char
  | [] => []
  | t :: ts => (tokenToString t).data ++ dotsChars ts

theorem tokensChars_cons_cons (t t2 : NumberingToken) (ts : List NumberingToken) :
    tokensChars (t :: t2 :: ts) = (tokenToString t).data ++ '.' :: tokensChars (t2 :: ts) := by
  simp [tokensChars, dotsChars]

theorem foldl_append_data (l : List String) : ∀ (acc : String),
    (l.foldl (fun a s => a ++ s) acc).data = acc.data ++ (l.map String.data).flatten := by
  induction l with
  | nil =>
    intro acc
    simp
  | cons s rest ih =>
    intro acc
    simp only [List.foldl_cons, ih, List.map_cons, List.flatten_cons, String.data_append,
      List.append_assoc]

theorem join_dots_data (ts : List NumberingToken) :
    (String.join (ts.map (fun u => "." ++ tokenToString u))).data = dotsChars ts := by
  have hmain : ∀ (l : List NumberingToken),
      ((l.map (fun u => "." ++ tokenToString u)).map String.data).flatten = dotsChars l := by
    intro l
    induction l with
    | nil => rfl
    | cons t rest ih =>
      simp only [List.map_cons, List.flatten_cons, ih, dotsChars, String.data_append]
      rfl
  show ((ts.map (fun u => "." ++ tokenToString u)).foldl (fun a s => a ++ s) "").data = _
  rw [foldl_append_data, hmain]
  simp

theorem makeNumberingString_data (t : NumberingToken) (ts : List NumberingToken) :
    (makeNumberingString (t :: ts)).data = ' ' :: tokensChars (t :: ts) := by
  show (" " ++ tokenToString t ++ String.join (ts.map (fun u => "." ++ tokenToString u))).data = _
  rw [String.data_append, String.data_append, join_dots_data]
  rfl

/-! The match of the full-prefix pattern on a canonically numbered line:
marker run, one space, dot-joined valid tokens, separator, one space, then
arbitrary residue.  The pattern consumes exactly the prefix plus the
leading spaces of the residue. -/

theorem tailStar_space (rest : List Char) :
    tailStar (' ' :: rest) = some (1 + (rest.takeWhile (fun c => c = ' ')).length) := by
  rw [tailStar_eq, matchGroup_space]
  exact tailToken_space rest

theorem tailToken_digits (tok rest' : List Char) (h1 : tok ≠ [])
    (h2 : ∀ c ∈ tok, isDigitChar c = true) (h3 : ∀ b ∈ rest'.head?, isDigitChar b = false)
    (m : Nat) (hp : tailPunct rest' = some m) :
    tailToken (tok ++ rest') = some (m + tok.length) := by
  have htw := takeWhile_all_head isDigitChar tok rest' h2 h3
  have hdr : (tok ++ rest').drop tok.length = rest' := List.drop_left _ _
  have hlen : tok.length ≠ 0 := fun he => h1 (List.length_eq_zero.mp he)
  simp only [tailToken, htw, hlen, if_true, ne_eq, not_false_eq_true, hdr, hp, Option.map_some']

theorem tailToken_upper (c0 : Char) (h0 : isUpperChar c0 = true) (rest' : List Char)
    (m : Nat) (hp : tailPunct rest' = some m) :
    tailToken (c0 :: rest') = some (m + 1) := by
  have hd : isDigitChar c0 = false := upper_not_digit c0 h0
  have htw : (c0 :: rest').takeWhile isDigitChar = [] := by
    rw [List.takeWhile_cons_of_neg]
    simp [hd]
  simp only [tailToken, htw, List.length_nil, ne_eq, not_true_eq_false, if_false, h0, if_true, hp]

theorem sep_cases (sep : String) (hsep : SepOk sep) :
    sep.data = [] ∨ sep.data = ['.'] ∨
      (∃ c, isSepChar c = true ∧ c ≠ '.' ∧ isDigitChar c = false ∧ sep.data = [c]) := by
  rcases hsep with h | h | h | h
  · exact Or.inl (by rw [h])
  · exact Or.inr (Or.inl (by rw [h]))
  · exact Or.inr (Or.inr ⟨':', by decide, by decide, by decide, by rw [h]⟩)
  · exact Or.inr (Or.inr ⟨'-', by decide, by decide, by decide, by rw [h]⟩)

theorem tailStar_canonical : ∀ (ts : List NumberingToken), ts ≠ [] →
    (∀ t ∈ ts, ValidToken t) → ∀ (sep : String), SepOk sep → ∀ (rest : List Char),
    tailStar (tokensChars ts ++ (sep.data ++ ' ' :: rest)) =
      some ((tokensChars ts).length + sep.data.length + 1 +
        (rest.takeWhile (fun c => c = ' ')).length) := by
  intro ts
  induction ts with
  | nil => intro h; exact absurd rfl h
  | cons t ts2 ih =>
    intro _ hval sep hsep rest
    cases ts2 with
    | nil =>
      -- a single token followed by the separator and the space run
      have hshape := tokChars t (hval t (by simp))
      have htc : tokensChars [t] = (tokenToString t).data := by simp [tokensChars, dotsChars]
      rw [htc]
      rcases hshape with ⟨hne, hdig⟩ | ⟨c0, hup, hc0⟩
      · -- digit-run token
        rcases sep_cases sep hsep with hs | hs | ⟨c, hcsep, hcdot, hcd, hs⟩
        · rw [hs]
          simp only [List.nil_append, List.length_nil]
          rw [tailStar_eq]
          simp only [matchGroup_digits_nodot _ hne hdig ' ' (by decide) (by decide) rest]
          rw [tailToken_digits _ (' ' :: rest) hne hdig
            (by intro b hb; simp at hb; subst hb; decide) _ (tailPunct_space rest)]
          exact congrArg some (by omega)
        · rw [hs]
          simp only [List.cons_append, List.nil_append, List.length_cons, List.length_nil]
          rw [tailStar_eq]
          have hdrop : ((tokenToString t).data ++ '.' :: ' ' :: rest).drop
              ((tokenToString t).data.length + 1) = ' ' :: rest := by
            have hsplit : (tokenToString t).data ++ '.' :: ' ' :: rest =
                ((tokenToString t).data ++ ['.']) ++ ' ' :: rest := by simp
            rw [hsplit]
            exact List.drop_left' (by simp)
          simp only [matchGroup_digits_dot _ hne hdig (' ' :: rest), hdrop, tailStar_space]
          exact congrArg some (by omega)
        · rw [hs]
          simp only [List.cons_append, List.nil_append, List.length_cons, List.length_nil]
          rw [tailStar_eq]
          simp only [matchGroup_digits_nodot _ hne hdig c hcd hcdot (' ' :: rest)]
          rw [tailToken_digits _ (c :: ' ' :: rest) hne hdig
            (by intro b hb; simp at hb; subst hb; exact hcd) _ (tailPunct_sep_space c hcsep rest)]
          exact congrArg some (by omega)
      · -- single-capital token
        rw [hc0]
        rcases sep_cases sep hsep with hs | hs | ⟨c, hcsep, hcdot, hcd, hs⟩
        · rw [hs]
          simp only [List.nil_append, List.cons_append, List.length_cons, List.length_nil]
          rw [tailStar_eq]
          simp only [matchGroup_upper_notdot c0 ' ' hup (by decide) rest]
          rw [tailToken_upper c0 hup (' ' :: rest) _ (tailPunct_space rest)]
          exact congrArg some (by omega)
        · rw [hs]
          simp only [List.cons_append, List.nil_append, List.length_cons, List.length_nil]
          rw [tailStar_eq]
          have hdrop : (c0 :: '.' :: ' ' :: rest).drop 2 = ' ' :: rest := rfl
          simp only [matchGroup_upper_dot c0 hup (' ' :: rest), hdrop, tailStar_space]
          exact congrArg some (by omega)
        · rw [hs]
          simp only [List.cons_append, List.nil_append, List.length_cons, List.length_nil]
          rw [tailStar_eq]
          simp only [matchGroup_upper_notdot c0 c hup hcdot (' ' :: rest)]
          rw [tailToken_upper c0 hup (c :: ' ' :: rest) _ (tailPunct_sep_space c hcsep rest)]
          exact congrArg some (by omega)
    | cons t2 ts3 =>
      -- head token, a dot, then the rest of the token list
      have hshape := tokChars t (hval t (by simp))
      have hvals : ∀ u ∈ t2 :: ts3, ValidToken u := by
        intro u hu
        exact hval u (by simp [hu])
      have hihx := ih (by simp) hvals sep hsep rest
      rw [tokensChars_cons_cons]
      have hassoc : ((tokenToString t).data ++ '.' :: tokensChars (t2 :: ts3)) ++
          (sep.data ++ ' ' :: rest) =
          (tokenToString t).data ++ '.' :: (tokensChars (t2 :: ts3) ++ (sep.data ++ ' ' :: rest)) := by
        simp
      rw [hassoc]
      rcases hshape with ⟨hne, hdig⟩ | ⟨c0, hup, hc0⟩
      · rw [tailStar_eq]
        have hdrop : ((tokenToString t).data ++
            '.' :: (tokensChars (t2 :: ts3) ++ (sep.data ++ ' ' :: rest))).drop
            ((tokenToString t).data.length + 1) =
            tokensChars (t2 :: ts3) ++ (sep.data ++ ' ' :: rest) := by
          have hsplit : (tokenToString t).data ++
              '.' :: (tokensChars (t2 :: ts3) ++ (sep.data ++ ' ' :: rest)) =
              ((tokenToString t).data ++ ['.']) ++
                (tokensChars (t2 :: ts3) ++ (sep.data ++ ' ' :: rest)) := by simp
          rw [hsplit]
          exact List.drop_left' (by simp)
        simp only [matchGroup_digits_dot _ hne hdig _, hdrop, hihx]
        refine congrArg some ?_
        simp only [List.length_append, List.length_cons]
        omega
      · rw [hc0]
        simp only [List.cons_append, List.nil_append]
        rw [tailStar_eq]
        have hdrop : (c0 :: '.' :: (tokensChars (t2 :: ts3) ++ (sep.data ++ ' ' :: rest))).drop 2 =
            tokensChars (t2 :: ts3) ++ (sep.data ++ ' ' :: rest) := rfl
        simp only [matchGroup_upper_dot c0 hup _, hdrop, hihx]
        refine congrArg some ?_
        simp only [List.length_cons]
        omega

theorem tailAfterHash_cons_space (rest : List Char) :
    tailAfterHash (' ' :: rest) =
      match tailStar rest with
      | some n => some (n + 1)
      | none => tailStar (' ' :: rest) := rfl

theorem tailAfterHash_canonical (ts : List NumberingToken) (hne : ts ≠ [])
    (hval : ∀ t ∈ ts, ValidToken t) (sep : String) (hsep : SepOk sep) (rest : List Char) :
    tailAfterHash (' ' :: (tokensChars ts ++ (sep.data ++ ' ' :: rest))) =
      some ((tokensChars ts).length + sep.data.length + 2 +
        (rest.takeWhile (fun c => c = ' ')).length) := by
  have hts := tailStar_canonical ts hne hval sep hsep rest
  rw [tailAfterHash_cons_space]
  simp only [hts]
  exact congrArg some (by omega)

/-! Lines of canonical shape: a marker run, then the numbered prefix, then
an arbitrary residue. -/

theorem takeWhile_ws_hash (hash rest' : List Char) (hne : hash ≠ [])
    (hh : ∀ c ∈ hash, c = '#') : (hash ++ rest').takeWhile isJsWs = [] := by
  cases hash with
  | nil => exact absurd rfl hne
  | cons c hs =>
    have hc : c = '#' := hh c (by simp)
    subst hc
    rw [List.cons_append, List.takeWhile_cons_of_neg (by decide)]

theorem takeWhile_hash_run (hash rest' : List Char) (hh : ∀ c ∈ hash, c = '#')
    (hr : ∀ b ∈ rest'.head?, (decide (b = '#')) = false) :
    (hash ++ rest').takeWhile (fun c => c = '#') = hash :=
  takeWhile_all_head _ _ _ (fun a ha => by simp [hh a ha]) hr

theorem fullMatchLen_canonical (hash : List Char) (hne : hash ≠ [])
    (hh : ∀ c ∈ hash, c = '#') (ts : List NumberingToken) (hts : ts ≠ [])
    (hval : ∀ t ∈ ts, ValidToken t) (sep : String) (hsep : SepOk sep) (rest : List Char) :
    fullMatchLen (hash ++ ' ' :: (tokensChars ts ++ (sep.data ++ ' ' :: rest))) =
      some (hash.length + 1 + (tokensChars ts).length + sep.data.length + 1 +
        (rest.takeWhile (fun c => c = ' ')).length) := by
  have hw : (hash ++ ' ' :: (tokensChars ts ++ (sep.data ++ ' ' :: rest))).takeWhile isJsWs
      = [] := takeWhile_ws_hash _ _ hne hh
  have hth : (hash ++ ' ' :: (tokensChars ts ++ (sep.data ++ ' ' :: rest))).takeWhile
      (fun c => c = '#') = hash :=
    takeWhile_hash_run _ _ hh (by intro b hb; simp at hb; subst hb; decide)
  have hlh : hash.length ≠ 0 := fun he => hne (List.length_eq_zero.mp he)
  have hdr : (hash ++ ' ' :: (tokensChars ts ++ (sep.data ++ ' ' :: rest))).drop
      (0 + hash.length) = ' ' :: (tokensChars ts ++ (sep.data ++ ' ' :: rest)) := by
    rw [Nat.zero_add]
    exact List.drop_left _ _
  simp only [fullMatchLen, hw, List.length_nil, List.drop_zero, hth, gt_iff_lt,
    Nat.not_lt_zero, if_false, hlh, hdr,
    tailAfterHash_canonical ts hts hval sep hsep rest, Option.map_some']
  exact congrArg some (by omega)

theorem markerLen_hash_head (cs : List Char) (hcs : cs.head? = some '#') :
    markerLen cs ≠ none := by
  cases cs with
  | nil => simp at hcs
  | cons c rest =>
    simp at hcs
    subst hcs
    simp only [markerLen]
    rw [List.takeWhile_cons_of_neg (by decide)]
    simp only [List.length_nil, gt_iff_lt, Nat.not_lt_zero, if_false, List.drop_zero]
    rw [List.takeWhile_cons_of_pos (by decide)]
    simp

theorem hashOfLine_canonical (hash : List Char) (hne : hash ≠ []) (hh : ∀ c ∈ hash, c = '#')
    (rest' : List Char) (hr : ∀ b ∈ rest'.head?, (decide (b = '#')) = false) :
    (hashOfLine (String.mk (hash ++ rest'))).data = hash := by
  show ((hash ++ rest').dropWhile isJsWs).takeWhile (fun c => c = '#') = hash
  have hdw : (hash ++ rest').dropWhile isJsWs = hash ++ rest' := by
    cases hash with
    | nil => exact absurd rfl hne
    | cons c hs =>
      have hc : c = '#' := hh c (by simp)
      subst hc
      rw [List.cons_append, List.dropWhile_cons_of_neg (by decide)]
  rw [hdw]
  exact takeWhile_hash_run _ _ hh hr

/-! The scanner functions on a well-formed heading line. -/

/-- A heading is well formed in a document when its line exists and carries
a recognisable marker run. -/
def HeadingWF (doc : Doc) (h : Heading) : Prop :=
  h.line < doc.length ∧ markerLen (lineAt doc h.line).data ≠ none

theorem take_takeWhile_len (p : Char → Bool) (l : List Char) :
    l.take (l.takeWhile p).length = l.takeWhile p := by
  have h : l.takeWhile p ++ l.dropWhile p = l := List.takeWhile_append_dropWhile p l
  calc l.take (l.takeWhile p).length
      = (l.takeWhile p ++ l.dropWhile p).take (l.takeWhile p).length := by rw [h]
    _ = l.takeWhile p := List.take_left _ _

theorem markerLen_ne_nil (s : String) (hm : markerLen s.data ≠ none) : s ≠ "" := by
  intro he
  subst he
  exact hm rfl

theorem hashOfLine_spec (s : String) (hm : markerLen s.data ≠ none) :
    (hashOfLine s).data ≠ [] ∧ ∀ c ∈ (hashOfLine s).data, c = '#' := by
  constructor
  · intro he
    apply hm
    simp only [markerLen]
    split
    · rfl
    · have hlen : ((s.data.drop (s.data.takeWhile isJsWs).length).takeWhile
          (fun c => c = '#')).length = 0 := by
        rw [drop_takeWhile_len]
        show (hashOfLine s).data.length = 0
        rw [he]
        rfl
      simp [hlen]
  · intro c hc
    have := List.mem_takeWhile_imp hc
    simpa using this

theorem makeHeadingHashString_eq (doc : Doc) (h : Heading) (line : String)
    (hget : getLine doc h.line = some line) (hm : markerLen line.data ≠ none) :
    makeHeadingHashString doc h = some (hashOfLine line) := by
  simp only [makeHeadingHashString, hget]
  rw [if_neg (markerLen_ne_nil line hm)]
  cases hml : markerLen line.data with
  | none => exact absurd hml hm
  | some n =>
    -- decompose the matched text: the whitespace run followed by the hash run
    have hn : n = (line.data.takeWhile isJsWs).length + (hashOfLine line).data.length := by
      simp only [markerLen] at hml
      split at hml
      · exact absurd hml (by simp)
      · split at hml
        · exact absurd hml (by simp)
        · rename_i hw hhs
          have : (line.data.drop (line.data.takeWhile isJsWs).length).takeWhile
              (fun c => c = '#') = (hashOfLine line).data := by
            rw [drop_takeWhile_len]
            rfl
          rw [this] at hml
          exact (Option.some.injEq _ _).mp hml.symm
    have htake : line.data.take n =
        line.data.takeWhile isJsWs ++ (hashOfLine line).data := by
      rw [hn, List.take_add]
      have h1 : line.data.take (line.data.takeWhile isJsWs).length =
          line.data.takeWhile isJsWs := take_takeWhile_len _ _
      have h2 : (line.data.drop (line.data.takeWhile isJsWs).length).take
          (hashOfLine line).data.length = (hashOfLine line).data := by
        rw [drop_takeWhile_len]
        exact take_takeWhile_len _ _
      rw [h1, h2]
    have hdrop : (line.data.take n).dropWhile isJsWs = (hashOfLine line).data := by
      rw [htake]
      apply dropWhile_all_head
      · intro a ha
        exact List.mem_takeWhile_imp ha
      · intro b hb
        obtain ⟨hhne, hhash⟩ := hashOfLine_spec line hm
        cases hhd : (hashOfLine line).data with
        | nil => exact absurd hhd hhne
        | cons c t =>
          rw [hhd] at hb
          simp at hb
          subst hb
          have hc : c = '#' := hhash c (by rw [hhd]; simp)
          subst hc
          decide
    show some (trimLeftJs (String.mk (line.data.take n))) = some (hashOfLine line)
    unfold trimLeftJs
    congr 1
    show String.mk ((line.data.take n).dropWhile isJsWs) = hashOfLine line
    rw [hdrop]

theorem getHeadingPrefixRange_eq (doc : Doc) (h : Heading) (line : String)
    (hget : getLine doc h.line = some line) (hne : line ≠ "") :
    getHeadingPrefixRange doc h =
      some ⟨⟨h.line, 0⟩, ⟨h.line, (fullMatchLen line.data).getD 0⟩⟩ := by
  simp only [getHeadingPrefixRange, hget]
  rw [if_neg hne]

/-! The engine state machine: the pure stack evolution and its invariants. -/

/-- The starting level: 1, or 2 when the top level is skipped. -/
def startLevel (settings : PluginSettings) : Nat :=
  if settings.skipTopLevel then 2 else 1

/-- The previous-level and stack evolution of one loop iteration (the stack
bookkeeping reads only the heading level, never the document). -/
def advance (settings : PluginSettings) (p : Nat × List NumberingToken)
    (heading : Heading) : Nat × List NumberingToken :=
  if excludedB settings heading.level then p
  else (heading.level, adjustStack settings p.1 heading.level p.2)

/-- The loop-state invariant: valid tokens, and the stack depth fixed by the
previous level. -/
def PairInv (settings : PluginSettings) (p : Nat × List NumberingToken) : Prop :=
  (∀ t ∈ p.2, ValidToken t) ∧
  p.2.length + startLevel settings = p.1 + 1 ∧
  startLevel settings ≤ p.1

theorem initState_inv (settings : PluginSettings) :
    PairInv settings ((initState settings).previousLevel, (initState settings).numberingStack) := by
  refine ⟨?_, ?_, ?_⟩
  · intro t ht
    simp only [initState] at ht
    simp at ht
    subst ht
    exact zeroth_valid _
  · show [zerothNumberingTokenInStyle settings.styleLevel1].length + startLevel settings
      = (if settings.skipTopLevel then 2 else 1) + 1
    simp only [startLevel, List.length_cons, List.length_nil]
    omega
  · show startLevel settings ≤ (if settings.skipTopLevel then 2 else 1)
    simp only [startLevel]
    split <;> omega

theorem popPushNext_length (stack : List NumberingToken) (hne : stack ≠ []) :
    (popPushNext stack).length = stack.length := by
  unfold popPushNext
  cases hl : stack.getLast? with
  | none => exact absurd (List.getLast?_eq_none_iff.mp hl) hne
  | some x =>
    simp only [List.length_append, List.length_dropLast, List.length_cons, List.length_nil]
    have hp : 1 ≤ stack.length := List.length_pos.mpr hne
    omega

theorem popPushNext_valid (stack : List NumberingToken) (hv : ∀ t ∈ stack, ValidToken t) :
    ∀ t ∈ popPushNext stack, ValidToken t := by
  unfold popPushNext
  cases hl : stack.getLast? with
  | none => exact hv
  | some x =>
    intro t ht
    rcases List.mem_append.mp ht with h1 | h2
    · exact hv t (List.dropLast_subset _ h1)
    · simp at h2
      subst h2
      exact next_valid x (hv x (List.mem_of_mem_getLast? hl))

theorem adjustStack_inv (settings : PluginSettings) (prev level : Nat)
    (stack : List NumberingToken) (hv : ∀ t ∈ stack, ValidToken t)
    (hlen : stack.length + startLevel settings = prev + 1)
    (hprev : startLevel settings ≤ prev) (hlev : startLevel settings ≤ level) :
    (∀ t ∈ adjustStack settings prev level stack, ValidToken t) ∧
    (adjustStack settings prev level stack).length + startLevel settings = level + 1 := by
  unfold adjustStack
  by_cases h1 : level = prev
  · rw [if_pos h1]
    have hne : stack ≠ [] := by
      intro he
      rw [he] at hlen
      simp at hlen
      omega
    refine ⟨popPushNext_valid _ hv, ?_⟩
    rw [popPushNext_length _ hne]
    omega
  · rw [if_neg h1]
    by_cases h2 : level < prev
    · rw [if_pos h2]
      have hv2 : ∀ t ∈ stack.take (stack.length - (prev - level)), ValidToken t :=
        fun t ht => hv t (List.take_subset _ _ ht)
      have hlen2 : (stack.take (stack.length - (prev - level))).length
          = level + 1 - startLevel settings := by
        rw [List.length_take]
        omega
      have hne2 : stack.take (stack.length - (prev - level)) ≠ [] := by
        intro he
        rw [he] at hlen2
        simp at hlen2
        omega
      refine ⟨popPushNext_valid _ hv2, ?_⟩
      rw [popPushNext_length _ hne2, hlen2]
      omega
    · rw [if_neg h2]
      constructor
      · intro t ht
        rcases List.mem_append.mp ht with ha | hb
        · exact hv t ha
        · have hb2 := List.eq_of_mem_replicate hb
          subst hb2
          exact first_valid _
      · rw [List.length_append, List.length_replicate]
        omega

theorem nonexcluded_start_le (settings : PluginSettings) (level : Nat) (hlev : 1 ≤ level)
    (hex : excludedB settings level = false) : startLevel settings ≤ level := by
  simp only [excludedB, Bool.or_eq_false_iff, Bool.and_eq_false_iff,
    decide_eq_false_iff_not, Nat.not_lt] at hex
  unfold startLevel
  split
  · rename_i hskip
    rcases hex.1 with h | h
    · rw [hskip] at h
      cases h
    · have hne1 : level ≠ 1 := by
        intro he
        subst he
        simp at h
      omega
  · omega

theorem advance_inv (settings : PluginSettings) (p : Nat × List NumberingToken)
    (heading : Heading) (hinv : PairInv settings p) (hlev : 1 ≤ heading.level) :
    PairInv settings (advance settings p heading) := by
  unfold advance
  by_cases hex : excludedB settings heading.level = true
  · rw [if_pos hex]
    exact hinv
  · have hex' : excludedB settings heading.level = false := by
      rwa [Bool.not_eq_true] at hex
    rw [hex']
    simp only [Bool.false_eq_true, if_false]
    obtain ⟨hv, hlen, hprev⟩ := hinv
    have hle := nonexcluded_start_le settings heading.level hlev hex'
    obtain ⟨hv2, hlen2⟩ := adjustStack_inv settings p.1 heading.level p.2 hv hlen hprev hle
    exact ⟨hv2, hlen2, hle⟩

theorem foldl_advance_inv (settings : PluginSettings) :
    ∀ (hs : List Heading) (p : Nat × List NumberingToken), PairInv settings p →
      (∀ h ∈ hs, 1 ≤ h.level) → PairInv settings (hs.foldl (advance settings) p) := by
  intro hs
  induction hs with
  | nil =>
    intro p hp _
    exact hp
  | cons h0 rest ih =>
    intro p hp hlev
    rw [List.foldl_cons]
    exact ih _ (advance_inv settings p h0 hp (hlev h0 (by simp)))
      (fun h hh => hlev h (by simp [hh]))

/-! One loop iteration on a well-formed heading. -/

theorem getLine_lt (doc : Doc) (i : Nat) (h : i < doc.length) :
    getLine doc i = some (lineAt doc i) := by
  unfold getLine lineAt
  cases hg : doc.get? i with
  | none =>
    rw [List.get?_eq_none] at hg
    omega
  | some s => rfl

/-- The replacement text the engine computes for a heading, as a function
of the loop state before it. -/
def textAt (doc : Doc) (settings : PluginSettings) (p : Nat × List NumberingToken)
    (heading : Heading) : String :=
  if excludedB settings heading.level then
    hashOfLine (lineAt doc heading.line) ++ " "
  else
    hashOfLine (lineAt doc heading.line) ++
      makeNumberingString (adjustStack settings p.1 heading.level p.2) ++
      settings.separator ++ " "

/-- The length of the full-pattern match on the heading line (0 when the
pattern does not match, as in getHeadingPrefixRange). -/
def matchLenAt (doc : Doc) (heading : Heading) : Nat :=
  (fullMatchLen (lineAt doc heading.line).data).getD 0

theorem updateStep_wf (doc : Doc) (settings : PluginSettings) (st : EngineState)
    (heading : Heading) (hwf : HeadingWF doc heading) :
    updateStep doc settings st heading =
      some { previousLevel := (advance settings (st.previousLevel, st.numberingStack) heading).1
             numberingStack := (advance settings (st.previousLevel, st.numberingStack) heading).2
             changes := replaceRangeSafely doc st.changes
               ⟨⟨heading.line, 0⟩, ⟨heading.line, matchLenAt doc heading⟩⟩
               (textAt doc settings (st.previousLevel, st.numberingStack) heading) } := by
  obtain ⟨hlt, hm⟩ := hwf
  have hline := getLine_lt doc heading.line hlt
  have hne := markerLen_ne_nil _ hm
  have hpr := getHeadingPrefixRange_eq doc heading _ hline hne
  have hhs := makeHeadingHashString_eq doc heading _ hline hm
  by_cases hex : excludedB settings heading.level = true
  · simp only [updateStep, hex, if_true, hpr, hhs, advance, textAt, matchLenAt]
  · have hex' : excludedB settings heading.level = false := by
      rwa [Bool.not_eq_true] at hex
    have hnmax : ¬ (settings.maxLevel < heading.level) := by
      simp only [excludedB, Bool.or_eq_false_iff, Bool.and_eq_false_iff,
        decide_eq_false_iff_not, Nat.not_lt] at hex'
      omega
    simp only [updateStep, hex', Bool.false_eq_true, if_false]
    rw [if_neg hnmax]
    simp only [hpr, hhs, advance, hex', Bool.false_eq_true, if_false, textAt, matchLenAt]

/-- What one replaceRangeSafely call at a column-zero single-line range can
do: leave the batch alone because the text already agrees, or append the
one change. -/
theorem replaceRangeSafely_line (doc : Doc) (changes : List EditChange) (l m : Nat)
    (text : String) :
    (replaceRangeSafely doc changes ⟨⟨l, 0⟩, ⟨l, m⟩⟩ text = changes ∧
      (lineAt doc l).data.take m = text.data) ∨
    replaceRangeSafely doc changes ⟨⟨l, 0⟩, ⟨l, m⟩⟩ text =
      changes ++ [⟨text, ⟨l, 0⟩, ⟨l, m⟩⟩] := by
  unfold replaceRangeSafely
  have hrange : getRange doc ⟨l, 0⟩ ⟨l, m⟩ = String.mk ((lineAt doc l).data.take m) := by
    unfold getRange
    simp
  rw [hrange]
  by_cases he : String.mk ((lineAt doc l).data.take m) = text
  · left
    rw [if_neg (by simp [he])]
    refine ⟨rfl, ?_⟩
    have hd := congrArg String.data he
    simpa using hd
  · right
    rw [if_pos he]

/-- Where the batch leaves a given heading: no change on its line (and the
line already starts with the prescribed text), or exactly the prescribed
change. -/
def LineSpec (doc : Doc) (cs : List EditChange) (heading : Heading) (text : String) : Prop :=
  (cs.filter (fun c => c.fromPos.line == heading.line) = [] ∧
    (lineAt doc heading.line).data =
      text.data ++ (lineAt doc heading.line).data.drop (matchLenAt doc heading)) ∨
  cs.filter (fun c => c.fromPos.line == heading.line) =
    [⟨text, ⟨heading.line, 0⟩, ⟨heading.line, matchLenAt doc heading⟩⟩]

theorem addFold_spec (doc : Doc) (settings : PluginSettings) :
    ∀ (hs : List Heading) (st : EngineState),
      (∀ h ∈ hs, HeadingWF doc h) →
      hs.Pairwise (fun a b => a.line ≠ b.line) →
      (∀ h ∈ hs, ∀ c ∈ st.changes, c.fromPos.line ≠ h.line) →
      ∃ st', List.foldlM (updateStep doc settings) st hs = some st' ∧
        (st'.previousLevel, st'.numberingStack) =
          hs.foldl (advance settings) (st.previousLevel, st.numberingStack) ∧
        (∃ newcs, st'.changes = st.changes ++ newcs ∧
          ∀ c ∈ newcs, ∃ h ∈ hs, c.fromPos.line = h.line) ∧
        ∀ pre h post, hs = pre ++ h :: post →
          LineSpec doc st'.changes h
            (textAt doc settings
              (pre.foldl (advance settings) (st.previousLevel, st.numberingStack)) h) := by
  intro hs
  induction hs with
  | nil =>
    intro st hwf hpw hch
    refine ⟨st, rfl, rfl, ⟨[], by simp, by simp⟩, ?_⟩
    intro pre h post hd
    cases pre <;> simp at hd
  | cons h0 rest ih =>
    intro st hwf hpw hch
    have hwf0 := hwf h0 (by simp)
    have hstep := updateStep_wf doc settings st h0 hwf0
    have hpw0 : ∀ h ∈ rest, h0.line ≠ h.line := (List.pairwise_cons.mp hpw).1
    have hpwr : rest.Pairwise (fun a b => a.line ≠ b.line) := (List.pairwise_cons.mp hpw).2
    -- the result of the head step
    have hrep := replaceRangeSafely_line doc st.changes h0.line (matchLenAt doc h0)
      (textAt doc settings (st.previousLevel, st.numberingStack) h0)
    set t0 := textAt doc settings (st.previousLevel, st.numberingStack) h0 with ht0
    set c0 : EditChange :=
      ⟨t0, ⟨h0.line, 0⟩, ⟨h0.line, matchLenAt doc h0⟩⟩ with hc0
    set st1 : EngineState :=
      { previousLevel := (advance settings (st.previousLevel, st.numberingStack) h0).1
        numberingStack := (advance settings (st.previousLevel, st.numberingStack) h0).2
        changes := replaceRangeSafely doc st.changes
          ⟨⟨h0.line, 0⟩, ⟨h0.line, matchLenAt doc h0⟩⟩ t0 } with hst1
    -- the changes of st1, in either case
    have hcases : (st1.changes = st.changes ∧
        (lineAt doc h0.line).data = t0.data ++ (lineAt doc h0.line).data.drop (matchLenAt doc h0)) ∨
        st1.changes = st.changes ++ [c0] := by
      rcases hrep with ⟨ha, hb⟩ | ha
      · left
        refine ⟨ha, ?_⟩
        conv_lhs => rw [← List.take_append_drop (matchLenAt doc h0) (lineAt doc h0.line).data]
        rw [hb]
      · right
        exact ha
    have hch1 : ∀ h ∈ rest, ∀ c ∈ st1.changes, c.fromPos.line ≠ h.line := by
      intro h hh c hc
      rcases hcases with ⟨ha, _⟩ | ha
      · rw [ha] at hc
        exact hch h (by simp [hh]) c hc
      · rw [ha] at hc
        rcases List.mem_append.mp hc with h1 | h2
        · exact hch h (by simp [hh]) c h1
        · simp at h2
          subst h2
          exact hpw0 h hh
    obtain ⟨st', hfold, hstate, ⟨newcs, hnewcs, hnewlines⟩, hline⟩ :=
      ih st1 (fun h hh => hwf h (by simp [hh])) hpwr hch1
    refine ⟨st', ?_, ?_, ?_, ?_⟩
    · rw [List.foldlM_cons, hstep]
      exact hfold
    · rw [hstate, List.foldl_cons]
    · rcases hcases with ⟨ha, _⟩ | ha
      · refine ⟨newcs, ?_, fun c hc => ?_⟩
        · rw [hnewcs, ha]
        · obtain ⟨h, hh, hl⟩ := hnewlines c hc
          exact ⟨h, by simp [hh], hl⟩
      · refine ⟨c0 :: newcs, ?_, fun c hc => ?_⟩
        · rw [hnewcs, ha]
          simp
        · rcases List.mem_cons.mp hc with h1 | h2
          · subst h1
            exact ⟨h0, by simp, rfl⟩
          · obtain ⟨h, hh, hl⟩ := hnewlines c h2
            exact ⟨h, by simp [hh], hl⟩
    · intro pre h post hd
      cases pre with
      | nil =>
        simp only [List.nil_append] at hd
        obtain ⟨rfl, rfl⟩ : h0 = h ∧ rest = post := by
          constructor <;> [exact (List.cons.injEq _ _ _ _ ▸ hd).1; exact (List.cons.injEq _ _ _ _ ▸ hd).2]
        -- the head heading: no later change touches its line
        have hfilter_new : newcs.filter (fun c => c.fromPos.line == h0.line) = [] := by
          rw [List.filter_eq_nil_iff]
          intro c hc
          obtain ⟨h, hh, hl⟩ := hnewlines c hc
          simp only [beq_iff_eq]
          rw [hl]
          exact fun he => (hpw0 h hh) he.symm
        have hfilter_old : st.changes.filter (fun c => c.fromPos.line == h0.line) = [] := by
          rw [List.filter_eq_nil_iff]
          intro c hc
          simp only [beq_iff_eq]
          exact hch h0 (by simp) c hc
        rcases hcases with ⟨ha, hline0⟩ | ha
        · left
          constructor
          · rw [hnewcs, ha, List.filter_append, hfilter_old, hfilter_new]
            rfl
          · simpa using hline0
        · right
          rw [hnewcs, ha, List.filter_append, List.filter_append, hfilter_old, hfilter_new]
          have : [c0].filter (fun c => c.fromPos.line == h0.line) = [c0] := by
            simp [hc0]
          rw [this]
          rfl
      | cons hpre pres =>
        simp only [List.cons_append, List.cons.injEq] at hd
        obtain ⟨rfl, hd2⟩ := hd
        have := hline pres h post hd2
        rw [List.foldl_cons]
        exact this

/-! The removal loop, and applying batches to the document. -/

theorem removeStep_wf (doc : Doc) (changes : List EditChange) (heading : Heading)
    (hwf : HeadingWF doc heading) :
    removeStep doc changes heading =
      some (replaceRangeSafely doc changes
        ⟨⟨heading.line, 0⟩, ⟨heading.line, matchLenAt doc heading⟩⟩
        (hashOfLine (lineAt doc heading.line) ++ " ")) := by
  obtain ⟨hlt, hm⟩ := hwf
  have hline := getLine_lt doc heading.line hlt
  have hne := markerLen_ne_nil _ hm
  simp only [removeStep, getHeadingPrefixRange_eq doc heading _ hline hne,
    makeHeadingHashString_eq doc heading _ hline hm, matchLenAt]

theorem removeFold_spec (doc : Doc) :
    ∀ (hs : List Heading) (cs0 : List EditChange),
      (∀ h ∈ hs, HeadingWF doc h) →
      hs.Pairwise (fun a b => a.line ≠ b.line) →
      (∀ h ∈ hs, ∀ c ∈ cs0, c.fromPos.line ≠ h.line) →
      ∃ cs', List.foldlM (removeStep doc) cs0 hs = some cs' ∧
        (∃ newcs, cs' = cs0 ++ newcs ∧ ∀ c ∈ newcs, ∃ h ∈ hs, c.fromPos.line = h.line) ∧
        ∀ h ∈ hs, LineSpec doc cs' h (hashOfLine (lineAt doc h.line) ++ " ") := by
  intro hs
  induction hs with
  | nil =>
    intro cs0 hwf hpw hch
    exact ⟨cs0, rfl, ⟨[], by simp, by simp⟩, by simp⟩
  | cons h0 rest ih =>
    intro cs0 hwf hpw hch
    have hwf0 := hwf h0 (by simp)
    have hstep := removeStep_wf doc cs0 h0 hwf0
    have hpw0 : ∀ h ∈ rest, h0.line ≠ h.line := (List.pairwise_cons.mp hpw).1
    have hpwr : rest.Pairwise (fun a b => a.line ≠ b.line) := (List.pairwise_cons.mp hpw).2
    set t0 := hashOfLine (lineAt doc h0.line) ++ " " with ht0
    set c0 : EditChange := ⟨t0, ⟨h0.line, 0⟩, ⟨h0.line, matchLenAt doc h0⟩⟩ with hc0
    set cs1 := replaceRangeSafely doc cs0
      ⟨⟨h0.line, 0⟩, ⟨h0.line, matchLenAt doc h0⟩⟩ t0 with hcs1
    have hrep := replaceRangeSafely_line doc cs0 h0.line (matchLenAt doc h0) t0
    have hcases : (cs1 = cs0 ∧
        (lineAt doc h0.line).data = t0.data ++ (lineAt doc h0.line).data.drop (matchLenAt doc h0)) ∨
        cs1 = cs0 ++ [c0] := by
      rcases hrep with ⟨ha, hb⟩ | ha
      · left
        refine ⟨ha, ?_⟩
        conv_lhs => rw [← List.take_append_drop (matchLenAt doc h0) (lineAt doc h0.line).data]
        rw [hb]
      · right
        exact ha
    have hch1 : ∀ h ∈ rest, ∀ c ∈ cs1, c.fromPos.line ≠ h.line := by
      intro h hh c hc
      rcases hcases with ⟨ha, _⟩ | ha
      · rw [ha] at hc
        exact hch h (by simp [hh]) c hc
      · rw [ha] at hc
        rcases List.mem_append.mp hc with h1 | h2
        · exact hch h (by simp [hh]) c h1
        · simp at h2
          subst h2
          exact hpw0 h hh
    obtain ⟨cs', hfold, ⟨newcs, hnewcs, hnewlines⟩, hline⟩ :=
      ih cs1 (fun h hh => hwf h (by simp [hh])) hpwr hch1
    refine ⟨cs', ?_, ?_, ?_⟩
    · rw [List.foldlM_cons, hstep]
      exact hfold
    · rcases hcases with ⟨ha, _⟩ | ha
      · refine ⟨newcs, ?_, fun c hc => ?_⟩
        · rw [hnewcs, ha]
        · obtain ⟨h, hh, hl⟩ := hnewlines c hc
          exact ⟨h, by simp [hh], hl⟩
      · refine ⟨c0 :: newcs, ?_, fun c hc => ?_⟩
        · rw [hnewcs, ha]
          simp
        · rcases List.mem_cons.mp hc with h1 | h2
          · subst h1
            exact ⟨h0, by simp, rfl⟩
          · obtain ⟨h, hh, hl⟩ := hnewlines c h2
            exact ⟨h, by simp [hh], hl⟩
    · intro h hh
      rcases List.mem_cons.mp hh with h1 | h2
      · subst h1
        have hfilter_new : newcs.filter (fun c => c.fromPos.line == h.line) = [] := by
          rw [List.filter_eq_nil_iff]
          intro c hc
          obtain ⟨h2, hh2, hl2⟩ := hnewlines c hc
          simp only [beq_iff_eq]
          rw [hl2]
          exact fun he => (hpw0 h2 hh2) he.symm
        have hfilter_old : cs0.filter (fun c => c.fromPos.line == h.line) = [] := by
          rw [List.filter_eq_nil_iff]
          intro c hc
          simp only [beq_iff_eq]
          exact hch h (by simp) c hc
        rcases hcases with ⟨ha, hline0⟩ | ha
        · left
          constructor
          · rw [hnewcs, ha, List.filter_append, hfilter_old, hfilter_new]
            rfl
          · exact hline0
        · right
          rw [hnewcs, ha, List.filter_append, List.filter_append, hfilter_old, hfilter_new]
          have hone : [c0].filter (fun c => c.fromPos.line == h.line) = [c0] := by
            simp [hc0]
          rw [hone]
          rfl
      · exact hline h h2

theorem applyChange_length (doc : Doc) (c : EditChange) :
    (applyChange doc c).length = doc.length := by
  unfold applyChange
  split
  · rw [List.length_set]
  · rfl

theorem applyChanges_length : ∀ (cs : List EditChange) (doc : Doc),
    (applyChanges doc cs).length = doc.length := by
  intro cs
  induction cs with
  | nil =>
    intro doc
    rfl
  | cons c rest ih =>
    intro doc
    show (applyChanges (applyChange doc c) rest).length = doc.length
    rw [ih, applyChange_length]

theorem lineAt_applyChange_ne (doc : Doc) (c : EditChange) (l : Nat)
    (h : c.fromPos.line ≠ l) : lineAt (applyChange doc c) l = lineAt doc l := by
  unfold applyChange
  split
  · unfold lineAt
    rw [List.get?_set]
    rw [if_neg h]
  · rfl

theorem lineAt_set (doc : Doc) (i : Nat) (s : String) (hi : i < doc.length) :
    lineAt (doc.set i s) i = s := by
  unfold lineAt
  rw [List.get?_set, if_pos rfl]
  cases hg : doc.get? i with
  | none =>
    rw [List.get?_eq_none] at hg
    omega
  | some u => rfl

theorem applyChanges_no_line : ∀ (cs : List EditChange) (doc : Doc) (l : Nat),
    cs.filter (fun c => c.fromPos.line == l) = [] →
    lineAt (applyChanges doc cs) l = lineAt doc l := by
  intro cs
  induction cs with
  | nil =>
    intro doc l _
    rfl
  | cons c rest ih =>
    intro doc l hf
    rw [List.filter_eq_nil_iff] at hf
    have hc : c.fromPos.line ≠ l := by
      have := hf c (by simp)
      simpa using this
    have hrest : rest.filter (fun c => c.fromPos.line == l) = [] := by
      rw [List.filter_eq_nil_iff]
      intro x hx
      exact hf x (by simp [hx])
    show lineAt (applyChanges (applyChange doc c) rest) l = lineAt doc l
    rw [ih (applyChange doc c) l hrest, lineAt_applyChange_ne doc c l hc]

theorem applyChanges_single_line : ∀ (cs : List EditChange) (doc : Doc) (l m : Nat)
    (text : String),
    cs.filter (fun c => c.fromPos.line == l) = [⟨text, ⟨l, 0⟩, ⟨l, m⟩⟩] →
    l < doc.length →
    lineAt (applyChanges doc cs) l = String.mk (text.data ++ (lineAt doc l).data.drop m) := by
  intro cs
  induction cs with
  | nil =>
    intro doc l m text hf _
    simp at hf
  | cons c rest ih =>
    intro doc l m text hf hl
    rw [List.filter_cons] at hf
    by_cases hp : (c.fromPos.line == l) = true
    · rw [if_pos hp] at hf
      have hc : c = ⟨text, ⟨l, 0⟩, ⟨l, m⟩⟩ := (List.cons.injEq _ _ _ _ ▸ hf).1
      have hrest : rest.filter (fun c => c.fromPos.line == l) = [] :=
        (List.cons.injEq _ _ _ _ ▸ hf).2
      subst hc
      show lineAt (applyChanges (applyChange doc _) rest) l = _
      rw [applyChanges_no_line rest _ l hrest]
      unfold applyChange
      rw [if_pos rfl]
      rw [lineAt_set _ l _ (by simpa using hl)]
      simp
    · rw [if_neg hp] at hf
      have hc : c.fromPos.line ≠ l := by simpa using hp
      show lineAt (applyChanges (applyChange doc c) rest) l = _
      rw [ih (applyChange doc c) l m text hf (by rw [applyChange_length]; exact hl),
        lineAt_applyChange_ne doc c l hc]

theorem lineSpec_apply (doc : Doc) (cs : List EditChange) (heading : Heading) (text : String)
    (hls : LineSpec doc cs heading text) (hlt : heading.line < doc.length) :
    (lineAt (applyChanges doc cs) heading.line).data =
      text.data ++ (lineAt doc heading.line).data.drop (matchLenAt doc heading) := by
  rcases hls with ⟨hf, hline⟩ | hf
  · rw [applyChanges_no_line cs doc heading.line hf]
    exact hline
  · have happ := applyChanges_single_line cs doc heading.line (matchLenAt doc heading) text hf hlt
    have hd := congrArg String.data happ
    simpa using hd

theorem updateHeadingNumberingChanges_spec (doc : Doc) (settings : PluginSettings)
    (headings : List Heading)
    (hwf : ∀ h ∈ headings, HeadingWF doc h)
    (hpw : headings.Pairwise (fun a b => a.line ≠ b.line)) :
    ∃ cs, updateHeadingNumberingChanges doc headings settings = some cs ∧
      (∀ c ∈ cs, ∃ h ∈ headings, c.fromPos.line = h.line) ∧
      ∀ pre h post, headings = pre ++ h :: post →
        LineSpec doc cs h (textAt doc settings (pre.foldl (advance settings)
          (startLevel settings, [zerothNumberingTokenInStyle settings.styleLevel1])) h) := by
  obtain ⟨st', h1, h2, ⟨newcs, h3, h4⟩, h5⟩ := addFold_spec doc settings headings
    (initState settings) hwf hpw (by intro h hh c hc; simp [initState] at hc)
  refine ⟨st'.changes, ?_, ?_, ?_⟩
  · unfold updateHeadingNumberingChanges
    rw [h1]
    rfl
  · intro c hc
    rw [h3] at hc
    simp only [initState] at hc
    simpa using h4 c (by simpa using hc)
  · intro pre h post hd
    have hls := h5 pre h post hd
    have hinit : ((initState settings).previousLevel, (initState settings).numberingStack)
        = (startLevel settings, [zerothNumberingTokenInStyle settings.styleLevel1]) := rfl
    rwa [hinit] at hls

theorem removeHeadingNumberingChanges_spec (doc : Doc) (headings : List Heading)
    (hwf : ∀ h ∈ headings, HeadingWF doc h)
    (hpw : headings.Pairwise (fun a b => a.line ≠ b.line)) :
    ∃ cs, removeHeadingNumberingChanges doc headings = some cs ∧
      (∀ c ∈ cs, ∃ h ∈ headings, c.fromPos.line = h.line) ∧
      ∀ h ∈ headings, LineSpec doc cs h (hashOfLine (lineAt doc h.line) ++ " ") := by
  obtain ⟨cs', h1, ⟨newcs, h2, h3⟩, h4⟩ := removeFold_spec doc headings []
    hwf hpw (by intro h hh c hc; simp at hc)
  refine ⟨cs', h1, ?_, h4⟩
  intro c hc
  rw [h2] at hc
  exact h3 c (by simpa using hc)

/-! Assembling the pipeline: the state of each heading line after the
numbering run, and after the removal run that follows it. -/

theorem add_apply_line (doc : Doc) (settings : PluginSettings) (headings : List Heading)
    (hwfm : ∀ h ∈ headings, HeadingWF doc h)
    (hpw : headings.Pairwise (fun a b => a.line ≠ b.line)) :
    ∃ cs, updateHeadingNumberingChanges doc headings settings = some cs ∧
      ∀ pre h post, headings = pre ++ h :: post →
        (lineAt (applyChanges doc cs) h.line).data =
          (textAt doc settings (pre.foldl (advance settings)
            (startLevel settings, [zerothNumberingTokenInStyle settings.styleLevel1])) h).data
          ++ (lineAt doc h.line).data.drop (matchLenAt doc h) := by
  obtain ⟨cs, h1, h2, h3⟩ := updateHeadingNumberingChanges_spec doc settings headings hwfm hpw
  refine ⟨cs, h1, ?_⟩
  intro pre h post hd
  exact lineSpec_apply doc cs h _ (h3 pre h post hd) ((hwfm h (by rw [hd]; simp)).1)

theorem textAt_nonexcluded_data (doc : Doc) (settings : PluginSettings)
    (p : Nat × List NumberingToken) (heading : Heading)
    (hinv : PairInv settings p) (hlev : 1 ≤ heading.level)
    (hex : excludedB settings heading.level = false) :
    ∃ ts, ts ≠ [] ∧ (∀ t ∈ ts, ValidToken t) ∧
      ts = adjustStack settings p.1 heading.level p.2 ∧
      (textAt doc settings p heading).data =
        (hashOfLine (lineAt doc heading.line)).data ++
          ' ' :: (tokensChars ts ++ (settings.separator.data ++ [' '])) := by
  obtain ⟨hv, hlen, hprev⟩ := hinv
  have hle := nonexcluded_start_le settings heading.level hlev hex
  obtain ⟨hv2, hlen2⟩ := adjustStack_inv settings p.1 heading.level p.2 hv hlen hprev hle
  have hne : adjustStack settings p.1 heading.level p.2 ≠ [] := by
    intro he
    rw [he] at hlen2
    simp at hlen2
    omega
  refine ⟨adjustStack settings p.1 heading.level p.2, hne, hv2, rfl, ?_⟩
  unfold textAt
  rw [hex]
  simp only [Bool.false_eq_true, if_false]
  rw [String.data_append, String.data_append, String.data_append]
  cases hcs : adjustStack settings p.1 heading.level p.2 with
  | nil => exact absurd hcs hne
  | cons t ts'' =>
    rw [makeNumberingString_data]
    simp

theorem textAt_excluded_data (doc : Doc) (settings : PluginSettings)
    (p : Nat × List NumberingToken) (heading : Heading)
    (hex : excludedB settings heading.level = true) :
    (textAt doc settings p heading).data =
      (hashOfLine (lineAt doc heading.line)).data ++ [' '] := by
  unfold textAt
  rw [hex]
  simp only [if_true]
  rw [String.data_append]

theorem hashOfLine_data_of (s : String) (hash rest' : List Char) (hdata : s.data = hash ++ rest')
    (hne : hash ≠ []) (hh : ∀ c ∈ hash, c = '#')
    (hr : ∀ b ∈ rest'.head?, (decide (b = '#')) = false) :
    (hashOfLine s).data = hash := by
  show ((s.data.dropWhile isJsWs).takeWhile (fun c => c = '#')) = hash
  rw [hdata]
  have hdw : (hash ++ rest').dropWhile isJsWs = hash ++ rest' := by
    cases hash with
    | nil => exact absurd rfl hne
    | cons c hs =>
      have hc : c = '#' := hh c (by simp)
      subst hc
      rw [List.cons_append, List.dropWhile_cons_of_neg (by decide)]
  rw [hdw]
  exact takeWhile_hash_run _ _ hh hr

/-- The residue of the original line after its match never begins with a
space: either the match consumed the trailing space run, or there was no
match and the line begins with whitespace-or-marker (only the matched case
is needed; the unmatched case is handled separately where it arises). -/
theorem drop_matchLen_head (doc : Doc) (heading : Heading) (n : Nat)
    (hm : fullMatchLen (lineAt doc heading.line).data = some n) :
    ((lineAt doc heading.line).data.drop (matchLenAt doc heading)).head? ≠ some ' ' := by
  unfold matchLenAt
  rw [hm]
  exact fullMatchLen_resid _ n hm

/-- Claim C2, main theorem.  For every heading sequence on well-formed,
pairwise-distinct heading lines and a recognised separator, running
removeHeadingNumbering after updateHeadingNumbering leaves every heading
that the exclusion rules do not cover with the prefix consisting of its
original marker run followed by exactly one space. -/
theorem roundTrip_marker (doc : Doc) (settings : PluginSettings) (headings : List Heading)
    (hwfm : ∀ h ∈ headings, HeadingWF doc h)
    (hlev : ∀ h ∈ headings, 1 ≤ h.level)
    (hpw : headings.Pairwise (fun a b => a.line ≠ b.line))
    (hsep : SepOk settings.separator) :
    ∃ cs cs', updateHeadingNumberingChanges doc headings settings = some cs ∧
      removeHeadingNumberingChanges (applyChanges doc cs) headings = some cs' ∧
      ∀ h ∈ headings, excludedB settings h.level = false →
        ∃ body : List Char,
          (lineAt (applyChanges (applyChanges doc cs) cs') h.line).data =
            (hashOfLine (lineAt doc h.line)).data ++ ' ' :: body ∧
          body.head? ≠ some ' ' := by
  obtain ⟨cs, hadd, hlines⟩ := add_apply_line doc settings headings hwfm hpw
  set doc' := applyChanges doc cs with hdoc'
  have hlen' : doc'.length = doc.length := applyChanges_length cs doc
  -- the shape of every heading line in the updated document
  have hshape : ∀ pre h post, headings = pre ++ h :: post →
      ∃ mid, (lineAt doc' h.line).data =
        (hashOfLine (lineAt doc h.line)).data ++ ' ' :: mid ∧
        (excludedB settings h.level = false →
          ∃ ts, ts ≠ [] ∧ (∀ t ∈ ts, ValidToken t) ∧
            mid = tokensChars ts ++ (settings.separator.data ++ ' ' ::
              (lineAt doc h.line).data.drop (matchLenAt doc h))) := by
    intro pre h post hd
    have hmem : h ∈ headings := by rw [hd]; simp
    have hl := hlines pre h post hd
    by_cases hex : excludedB settings h.level = true
    · refine ⟨(lineAt doc h.line).data.drop (matchLenAt doc h), ?_, ?_⟩
      · rw [hl, textAt_excluded_data doc settings _ h hex]
        simp
      · intro hfalse
        rw [hex] at hfalse
        cases hfalse
    · have hex' : excludedB settings h.level = false := by rwa [Bool.not_eq_true] at hex
      have hinv : PairInv settings (pre.foldl (advance settings)
          (startLevel settings, [zerothNumberingTokenInStyle settings.styleLevel1])) := by
        apply foldl_advance_inv
        · refine ⟨?_, ?_, ?_⟩
          · intro t ht
            simp at ht
            subst ht
            exact zeroth_valid _
          · simp only [List.length_cons, List.length_nil]
            omega
          · exact le_rfl
        · intro hx hhx
          exact hlev hx (by rw [hd]; simp [hhx])
      obtain ⟨ts, hne, hval, hts, hdata⟩ :=
        textAt_nonexcluded_data doc settings _ h hinv (hlev h hmem) hex'
      refine ⟨tokensChars ts ++ (settings.separator.data ++ ' ' ::
        (lineAt doc h.line).data.drop (matchLenAt doc h)), ?_, ?_⟩
      · rw [hl, hdata]
        simp
      · intro _
        exact ⟨ts, hne, hval, rfl⟩
  -- well-formedness of all headings in the updated document
  have hwf' : ∀ h ∈ headings, HeadingWF doc' h := by
    intro h hmem
    obtain ⟨pre, post, hd⟩ := List.append_of_mem hmem
    obtain ⟨mid, hdata, _⟩ := hshape pre h post hd
    obtain ⟨hhne, hhash⟩ := hashOfLine_spec (lineAt doc h.line) (hwfm h hmem).2
    refine ⟨by rw [hlen']; exact (hwfm h hmem).1, ?_⟩
    apply markerLen_hash_head
    rw [hdata]
    cases hcs : (hashOfLine (lineAt doc h.line)).data with
    | nil => exact absurd hcs hhne
    | cons c t =>
      have hc : c = '#' := hhash c (by rw [hcs]; simp)
      subst hc
      rfl
  obtain ⟨cs', hrem, hlines', hls'⟩ := removeHeadingNumberingChanges_spec doc' headings hwf' hpw
  refine ⟨cs, cs', hadd, hrem, ?_⟩
  intro h hmem hex'
  obtain ⟨pre, post, hd⟩ := List.append_of_mem hmem
  obtain ⟨mid, hdata, hmid⟩ := hshape pre h post hd
  obtain ⟨ts, hne, hval, hmideq⟩ := hmid hex'
  obtain ⟨hhne, hhash⟩ := hashOfLine_spec (lineAt doc h.line) (hwfm h hmem).2
  -- the final line after the removal run
  have hfin := lineSpec_apply doc' cs' h _ (hls' h hmem)
    (by rw [hlen']; exact (hwfm h hmem).1)
  -- the hash of the canonical line is the original hash
  have hhol : (hashOfLine (lineAt doc' h.line)).data = (hashOfLine (lineAt doc h.line)).data := by
    apply hashOfLine_data_of _ _ (' ' :: mid) hdata hhne hhash
    intro b hb
    simp at hb
    subst hb
    decide
  -- the match length on the canonical line
  set rest := (lineAt doc h.line).data.drop (matchLenAt doc h) with hrest
  have hfml : fullMatchLen (lineAt doc' h.line).data =
      some ((hashOfLine (lineAt doc h.line)).data.length + 1 + (tokensChars ts).length +
        settings.separator.data.length + 1 + (rest.takeWhile (fun c => c = ' ')).length) := by
    rw [hdata, hmideq]
    exact fullMatchLen_canonical _ hhne hhash ts hne hval settings.separator hsep rest
  have hml' : matchLenAt doc' h = (hashOfLine (lineAt doc h.line)).data.length + 1 +
      (tokensChars ts).length + settings.separator.data.length + 1 +
      (rest.takeWhile (fun c => c = ' ')).length := by
    unfold matchLenAt
    rw [hfml]
    rfl
  -- dropping the match from the canonical line leaves the de-spaced residue
  have hdrop : (lineAt doc' h.line).data.drop (matchLenAt doc' h) =
      rest.dropWhile (fun c => c = ' ') := by
    rw [hml', hdata, hmideq]
    have hsplit : (hashOfLine (lineAt doc h.line)).data ++ ' ' ::
        (tokensChars ts ++ (settings.separator.data ++ ' ' :: rest)) =
        ((hashOfLine (lineAt doc h.line)).data ++ ' ' ::
          (tokensChars ts ++ (settings.separator.data ++ [' ']))) ++ rest := by
      simp
    rw [hsplit]
    have hplen : ((hashOfLine (lineAt doc h.line)).data ++ ' ' ::
        (tokensChars ts ++ (settings.separator.data ++ [' ']))).length =
        (hashOfLine (lineAt doc h.line)).data.length + 1 + (tokensChars ts).length +
          settings.separator.data.length + 1 := by
      simp
      omega
    have hstep : (hashOfLine (lineAt doc h.line)).data.length + 1 + (tokensChars ts).length +
        settings.separator.data.length + 1 + (rest.takeWhile (fun c => c = ' ')).length =
        ((hashOfLine (lineAt doc h.line)).data ++ ' ' ::
          (tokensChars ts ++ (settings.separator.data ++ [' ']))).length +
          (rest.takeWhile (fun c => c = ' ')).length := by
      rw [hplen]
    rw [hstep, ← List.drop_drop]
    rw [List.drop_left]
    exact drop_takeWhile_len _ _
  refine ⟨rest.dropWhile (fun c => c = ' '), ?_, ?_⟩
  · rw [hfin, hdrop]
    rw [String.data_append, hhol]
    simp
  · intro hx
    have := head?_dropWhile_false _ _ _ hx
    simp at this

/-! A second numbering pass over an already-canonical document. -/

theorem replaceRangeSafely_noop (doc : Doc) (changes : List EditChange) (l m : Nat)
    (text : String) (heq : (lineAt doc l).data.take m = text.data) :
    replaceRangeSafely doc changes ⟨⟨l, 0⟩, ⟨l, m⟩⟩ text = changes := by
  unfold replaceRangeSafely
  have hrange : getRange doc ⟨l, 0⟩ ⟨l, m⟩ = String.mk ((lineAt doc l).data.take m) := by
    unfold getRange
    simp
  rw [hrange, heq]
  have hmk : String.mk text.data = text := rfl
  rw [hmk]
  simp

theorem secondRun_noop (doc' : Doc) (settings : PluginSettings) (hsep : SepOk settings.separator) :
    ∀ (hs : List Heading) (st : EngineState),
      (∀ pre h post, hs = pre ++ h :: post →
        excludedB settings h.level = false ∧ 1 ≤ h.level ∧ h.line < doc'.length ∧
        ∃ hash rest, hash ≠ [] ∧ (∀ c ∈ hash, c = '#') ∧ rest.head? ≠ some ' ' ∧
          ∃ ts, ts ≠ [] ∧ (∀ t ∈ ts, ValidToken t) ∧
            ts = adjustStack settings
              (pre.foldl (advance settings) (st.previousLevel, st.numberingStack)).1 h.level
              (pre.foldl (advance settings) (st.previousLevel, st.numberingStack)).2 ∧
            (lineAt doc' h.line).data =
              hash ++ ' ' :: (tokensChars ts ++ (settings.separator.data ++ ' ' :: rest))) →
      ∃ st', List.foldlM (updateStep doc' settings) st hs = some st' ∧
        st'.changes = st.changes := by
  intro hs
  induction hs with
  | nil =>
    intro st _
    exact ⟨st, rfl, rfl⟩
  | cons h0 rest' ih =>
    intro st hhyp
    obtain ⟨hex', hlev0, hlt0, hash, restR, hhne, hhash, hrhead, ts, htsne, htsval, htseq, hline0⟩ :=
      hhyp [] h0 rest' rfl
    simp only [List.foldl_nil] at htseq
    -- the line is well formed
    have hwf0 : HeadingWF doc' h0 := by
      refine ⟨hlt0, ?_⟩
      apply markerLen_hash_head
      rw [hline0]
      cases hcs : hash with
      | nil => exact absurd hcs hhne
      | cons c t =>
        have hc : c = '#' := hhash c (by rw [hcs]; simp)
        subst hc
        rfl
    have hstep := updateStep_wf doc' settings st h0 hwf0
    -- the computed text equals the matched prefix of the line
    have hhol : (hashOfLine (lineAt doc' h0.line)).data = hash := by
      apply hashOfLine_data_of _ _ _ hline0 hhne hhash
      intro b hb
      simp at hb
      subst hb
      decide
    have htext : (textAt doc' settings (st.previousLevel, st.numberingStack) h0).data =
        hash ++ ' ' :: (tokensChars ts ++ (settings.separator.data ++ [' '])) := by
      unfold textAt
      rw [hex']
      simp only [Bool.false_eq_true, if_false]
      rw [String.data_append, String.data_append, String.data_append, hhol, ← htseq]
      cases hcs : ts with
      | nil => exact absurd hcs htsne
      | cons t ts'' =>
        rw [makeNumberingString_data]
        simp
    have hlead : (restR.takeWhile (fun c => c = ' ')).length = 0 := by
      cases hr : restR with
      | nil => rfl
      | cons r rr =>
        have : r ≠ ' ' := by
          intro he
          subst he
          rw [hr] at hrhead
          exact hrhead rfl
        rw [List.takeWhile_cons_of_neg (by simpa using this)]
        rfl
    have hm : matchLenAt doc' h0 = hash.length + 1 + (tokensChars ts).length +
        settings.separator.data.length + 1 := by
      unfold matchLenAt
      rw [hline0, fullMatchLen_canonical hash hhne hhash ts htsne htsval
        settings.separator hsep restR]
      simp [hlead]
    have htake : (lineAt doc' h0.line).data.take (matchLenAt doc' h0) =
        (textAt doc' settings (st.previousLevel, st.numberingStack) h0).data := by
      rw [htext, hm, hline0]
      have hsplit : hash ++ ' ' :: (tokensChars ts ++ (settings.separator.data ++ ' ' :: restR)) =
          (hash ++ ' ' :: (tokensChars ts ++ (settings.separator.data ++ [' ']))) ++ restR := by
        simp
      rw [hsplit]
      apply List.take_left'
      simp
      omega
    have hnoop := replaceRangeSafely_noop doc' st.changes h0.line (matchLenAt doc' h0)
      (textAt doc' settings (st.previousLevel, st.numberingStack) h0) htake
    rw [hnoop] at hstep
    obtain ⟨st', hfold, hch⟩ := ih
      { previousLevel := (advance settings (st.previousLevel, st.numberingStack) h0).1
        numberingStack := (advance settings (st.previousLevel, st.numberingStack) h0).2
        changes := st.changes }
      (by
        intro pre h post hd
        have hx := hhyp (h0 :: pre) h post (by rw [hd]; rfl)
        simpa [List.foldl_cons, Prod.mk.eta] using hx)
    refine ⟨st', ?_, hch⟩
    rw [List.foldlM_cons, hstep]
    exact hfold

/-- Claim C5, amended.  A second numbering pass emits zero edits provided
every heading passes the exclusion check and every original heading line
has a nonzero full-pattern match; without those restrictions the second
pass can emit further edits (see the counterexample). -/
theorem secondPass_noEdits (doc : Doc) (settings : PluginSettings) (headings : List Heading)
    (hwfm : ∀ h ∈ headings, HeadingWF doc h)
    (hlev : ∀ h ∈ headings, 1 ≤ h.level)
    (hpw : headings.Pairwise (fun a b => a.line ≠ b.line))
    (hsep : SepOk settings.separator)
    (hnex : ∀ h ∈ headings, excludedB settings h.level = false)
    (hmatch : ∀ h ∈ headings, fullMatchLen (lineAt doc h.line).data ≠ none) :
    ∃ cs, updateHeadingNumberingChanges doc headings settings = some cs ∧
      updateHeadingNumberingChanges (applyChanges doc cs) headings settings = some [] := by
  obtain ⟨cs, hadd, hlines⟩ := add_apply_line doc settings headings hwfm hpw
  have hlen' : (applyChanges doc cs).length = doc.length := applyChanges_length cs doc
  refine ⟨cs, hadd, ?_⟩
  obtain ⟨st', hfold, hch⟩ := secondRun_noop (applyChanges doc cs) settings hsep headings
    (initState settings)
    (by
      intro pre h post hd
      have hmem : h ∈ headings := by rw [hd]; simp
      refine ⟨hnex h hmem, hlev h hmem, by rw [hlen']; exact (hwfm h hmem).1, ?_⟩
      have hinv : PairInv settings (pre.foldl (advance settings)
          (startLevel settings, [zerothNumberingTokenInStyle settings.styleLevel1])) := by
        apply foldl_advance_inv
        · refine ⟨?_, ?_, le_rfl⟩
          · intro t ht
            simp at ht
            subst ht
            exact zeroth_valid _
          · simp only [List.length_cons, List.length_nil]
            omega
        · intro hx hhx
          exact hlev hx (by rw [hd]; simp [hhx])
      obtain ⟨ts, hne, hval, hts, hdata⟩ := textAt_nonexcluded_data doc settings _ h hinv
        (hlev h hmem) (hnex h hmem)
      obtain ⟨hhne, hhash⟩ := hashOfLine_spec (lineAt doc h.line) (hwfm h hmem).2
      refine ⟨(hashOfLine (lineAt doc h.line)).data,
        (lineAt doc h.line).data.drop (matchLenAt doc h), hhne, hhash, ?_, ts, hne, hval, ?_, ?_⟩
      · cases hfm : fullMatchLen (lineAt doc h.line).data with
        | none => exact absurd hfm (hmatch h hmem)
        | some n => exact drop_matchLen_head doc h n hfm
      · rw [hts]
        rfl
      · have hl := hlines pre h post hd
        rw [hl, hdata]
        simp)
  unfold updateHeadingNumberingChanges
  rw [hfold]
  have hempty : st'.changes = [] := by
    rw [hch]
    rfl
  rw [Option.map_some', hempty]

/-! Success of the numbering fold without the per-line bookkeeping, for
reasoning about intermediate stack states. -/

theorem addFold_success (doc : Doc) (settings : PluginSettings) :
    ∀ (hs : List Heading) (st : EngineState), (∀ h ∈ hs, HeadingWF doc h) →
      ∃ st', List.foldlM (updateStep doc settings) st hs = some st' ∧
        (st'.previousLevel, st'.numberingStack) =
          hs.foldl (advance settings) (st.previousLevel, st.numberingStack) := by
  intro hs
  induction hs with
  | nil =>
    intro st _
    exact ⟨st, rfl, rfl⟩
  | cons h0 rest ih =>
    intro st hwf
    have hstep := updateStep_wf doc settings st h0 (hwf h0 (by simp))
    obtain ⟨st', hfold, hpair⟩ := ih
      { previousLevel := (advance settings (st.previousLevel, st.numberingStack) h0).1
        numberingStack := (advance settings (st.previousLevel, st.numberingStack) h0).2
        changes := replaceRangeSafely doc st.changes
          ⟨⟨h0.line, 0⟩, ⟨h0.line, matchLenAt doc h0⟩⟩
          (textAt doc settings (st.previousLevel, st.numberingStack) h0) }
      (fun h hh => hwf h (by simp [hh]))
    refine ⟨st', ?_, ?_⟩
    · rw [List.foldlM_cons, hstep]
      exact hfold
    · rw [hpair, List.foldl_cons]

/-- Claim C4, amended.  Under the well-nestedness hypothesis of the claim,
after the loop processes a heading that the exclusion rules do not cover,
the stack depth equals level − startLevel + 1 (stated additively); on an
excluded heading the stack is untouched, so the equality can fail there
(see the counterexample). -/
theorem stackDepth_at (doc : Doc) (settings : PluginSettings) (headings : List Heading)
    (hwfm : ∀ h ∈ headings, HeadingWF doc h)
    (hlev : ∀ h ∈ headings, 1 ≤ h.level)
    (_hwn : List.Chain' (fun a b => b.level ≤ a.level + 1) headings)
    (i : Nat) (hi : i < headings.length)
    (hnex : excludedB settings (headings.get ⟨i, hi⟩).level = false) :
    ∃ st, List.foldlM (updateStep doc settings) (initState settings)
        (headings.take (i + 1)) = some st ∧
      st.numberingStack.length + startLevel settings = (headings.get ⟨i, hi⟩).level + 1 := by
  have htake : headings.take (i + 1) = headings.take i ++ [headings.get ⟨i, hi⟩] := by
    rw [List.take_succ]
    congr 1
    rw [List.getElem?_eq_getElem hi]
    rfl
  obtain ⟨st, hf, hp⟩ := addFold_success doc settings (headings.take (i + 1))
    (initState settings) (fun h hh => hwfm h (List.take_subset _ _ hh))
  refine ⟨st, hf, ?_⟩
  rw [htake, List.foldl_append] at hp
  have hinv1 : PairInv settings ((headings.take i).foldl (advance settings)
      ((initState settings).previousLevel, (initState settings).numberingStack)) :=
    foldl_advance_inv settings _ _ (initState_inv settings)
      (fun h hh => hlev h (List.take_subset _ _ hh))
  have hadv : PairInv settings (advance settings
      ((headings.take i).foldl (advance settings)
        ((initState settings).previousLevel, (initState settings).numberingStack))
      (headings.get ⟨i, hi⟩)) :=
    advance_inv settings _ _ hinv1 (hlev _ (headings.get_mem _ _))
  have hfst : (advance settings
      ((headings.take i).foldl (advance settings)
        ((initState settings).previousLevel, (initState settings).numberingStack))
      (headings.get ⟨i, hi⟩)).1 = (headings.get ⟨i, hi⟩).level := by
    unfold advance
    rw [hnex]
    simp
  simp only [List.foldl_cons, List.foldl_nil] at hp
  have hsnd : st.numberingStack = (advance settings
      ((headings.take i).foldl (advance settings)
        ((initState settings).previousLevel, (initState settings).numberingStack))
      (headings.get ⟨i, hi⟩)).2 := congrArg Prod.snd hp
  rw [hsnd]
  have hlen := hadv.2.1
  rw [hfst] at hlen
  exact hlen

/-! Scanner failures: the exclusion branch skips, the main path and the
removal loop abort. -/

/-- A heading on which one of the two scanner calls fails. -/
def ScanFail (doc : Doc) (heading : Heading) : Prop :=
  getHeadingPrefixRange doc heading = none ∨ makeHeadingHashString doc heading = none

/-- Claim C1, amended.  A scanner failure on an excluded heading is skipped
with the loop state unchanged; on a non-excluded heading during numbering,
or on any heading during removal, it aborts the whole operation, so no
transaction is executed and the edits computed for the other headings are
discarded rather than applied. -/
theorem scanFail_behavior (doc : Doc) (settings : PluginSettings) :
    (∀ (st : EngineState) (heading : Heading), excludedB settings heading.level = true →
      ScanFail doc heading → updateStep doc settings st heading = some st) ∧
    (∀ (st : EngineState) (heading : Heading), excludedB settings heading.level = false →
      ScanFail doc heading → updateStep doc settings st heading = none) ∧
    (∀ (changes : List EditChange) (heading : Heading), ScanFail doc heading →
      removeStep doc changes heading = none) ∧
    (∀ (headings pre post : List Heading) (heading : Heading) (st1 : EngineState),
      headings = pre ++ heading :: post → excludedB settings heading.level = false →
      ScanFail doc heading →
      List.foldlM (updateStep doc settings) (initState settings) pre = some st1 →
      updateHeadingNumberingChanges doc headings settings = none) ∧
    (∀ (headings pre post : List Heading) (heading : Heading) (cs1 : List EditChange),
      headings = pre ++ heading :: post → ScanFail doc heading →
      List.foldlM (removeStep doc) [] pre = some cs1 →
      removeHeadingNumberingChanges doc headings = none) := by
  have hexc : ∀ (st : EngineState) (heading : Heading), excludedB settings heading.level = true →
      ScanFail doc heading → updateStep doc settings st heading = some st := by
    intro st heading hex hsf
    simp only [updateStep, hex, if_true]
    cases hpr : getHeadingPrefixRange doc heading with
    | none => rfl
    | some r =>
      rcases hsf with hx | hx
      · rw [hpr] at hx
        cases hx
      · simp only [hx]
  have hmain : ∀ (st : EngineState) (heading : Heading), excludedB settings heading.level = false →
      ScanFail doc heading → updateStep doc settings st heading = none := by
    intro st heading hex hsf
    have hnmax : ¬ (settings.maxLevel < heading.level) := by
      simp only [excludedB, Bool.or_eq_false_iff, Bool.and_eq_false_iff,
        decide_eq_false_iff_not, Nat.not_lt] at hex
      omega
    simp only [updateStep, hex, Bool.false_eq_true, if_false]
    rw [if_neg hnmax]
    cases hpr : getHeadingPrefixRange doc heading with
    | none => rfl
    | some r =>
      rcases hsf with hx | hx
      · rw [hpr] at hx
        cases hx
      · simp only [hx]
  have hrem : ∀ (changes : List EditChange) (heading : Heading), ScanFail doc heading →
      removeStep doc changes heading = none := by
    intro changes heading hsf
    unfold removeStep
    cases hpr : getHeadingPrefixRange doc heading with
    | none => rfl
    | some r =>
      rcases hsf with hx | hx
      · rw [hpr] at hx
        cases hx
      · simp only [hx]
  refine ⟨hexc, hmain, hrem, ?_, ?_⟩
  · intro headings pre post heading st1 hd hex hsf hpre
    unfold updateHeadingNumberingChanges
    rw [hd, List.foldlM_append, hpre]
    show ((List.foldlM (updateStep doc settings) st1 (heading :: post)).map
      (fun st => st.changes)) = none
    rw [List.foldlM_cons, hmain st1 heading hex hsf]
    rfl
  · intro headings pre post heading cs1 hd hsf hpre
    unfold removeHeadingNumberingChanges
    rw [hd, List.foldlM_append, hpre]
    show (List.foldlM (removeStep doc) cs1 (heading :: post)) = none
    rw [List.foldlM_cons, hrem cs1 heading hsf]
    rfl

/-- Claim C7, amended.  When the full-prefix pattern finds no match on a
non-empty heading line, the scanner does not return "no range": it returns
the empty range at column 0, and the numbering path then emits an edit
inserting the computed prefix at the start of the line (the scanner
returns no range only for a missing or empty line). -/
theorem noMatch_empty_range (doc : Doc) (heading : Heading) (line : String)
    (hget : getLine doc heading.line = some line) (hne : line ≠ "")
    (hnm : fullMatchLen line.data = none) :
    getHeadingPrefixRange doc heading = some ⟨⟨heading.line, 0⟩, ⟨heading.line, 0⟩⟩ ∧
    ∀ (settings : PluginSettings) (st : EngineState),
      excludedB settings heading.level = false →
      markerLen line.data ≠ none →
      ∃ st', updateStep doc settings st heading = some st' ∧
        st'.changes = st.changes ++
          [⟨hashOfLine line ++
              makeNumberingString (adjustStack settings st.previousLevel heading.level
                st.numberingStack) ++ settings.separator ++ " ",
            ⟨heading.line, 0⟩, ⟨heading.line, 0⟩⟩] := by
  have hr0 : getHeadingPrefixRange doc heading =
      some ⟨⟨heading.line, 0⟩, ⟨heading.line, 0⟩⟩ := by
    have := getHeadingPrefixRange_eq doc heading line hget hne
    rwa [hnm] at this
  refine ⟨hr0, ?_⟩
  intro settings st hex hm
  have hget' : doc.get? heading.line = some line := hget
  have hlt : heading.line < doc.length := by
    by_contra hc
    rw [List.get?_eq_none.mpr (Nat.le_of_not_lt hc)] at hget'
    cases hget'
  have hlineAt : lineAt doc heading.line = line := by
    unfold lineAt
    rw [hget']
    rfl
  have hwf : HeadingWF doc heading := ⟨hlt, by rwa [hlineAt]⟩
  have hstep := updateStep_wf doc settings st heading hwf
  have hml0 : matchLenAt doc heading = 0 := by
    unfold matchLenAt
    rw [hlineAt, hnm]
    rfl
  have htext : textAt doc settings (st.previousLevel, st.numberingStack) heading =
      hashOfLine line ++
        makeNumberingString (adjustStack settings st.previousLevel heading.level
          st.numberingStack) ++ settings.separator ++ " " := by
    unfold textAt
    rw [hex]
    simp only [Bool.false_eq_true, if_false, hlineAt]
  have htne : (textAt doc settings (st.previousLevel, st.numberingStack) heading).data ≠ [] := by
    rw [htext]
    intro he
    rw [String.data_append] at he
    rcases List.append_eq_nil.mp he with ⟨-, h2⟩
    exact absurd h2 (by decide)
  rcases replaceRangeSafely_line doc st.changes heading.line (matchLenAt doc heading)
      (textAt doc settings (st.previousLevel, st.numberingStack) heading) with ⟨ha, hb⟩ | ha
  · exfalso
    rw [hml0] at hb
    simp at hb
    exact htne hb
  · refine ⟨_, hstep, ?_⟩
    show replaceRangeSafely doc st.changes _ _ = _
    rw [ha, hml0, htext]

/-- The range the scanner returns always spans from column 0 on the heading
line to the end of the match. -/
theorem getHeadingPrefixRange_shape (doc : Doc) (heading : Heading) (r : EditorRange)
    (h : getHeadingPrefixRange doc heading = some r) :
    ∃ line, getLine doc heading.line = some line ∧ line ≠ "" ∧
      r = ⟨⟨heading.line, 0⟩, ⟨heading.line, (fullMatchLen line.data).getD 0⟩⟩ := by
  cases hg : getLine doc heading.line with
  | none =>
    have hnone : getHeadingPrefixRange doc heading = none := by
      simp only [getHeadingPrefixRange, hg]
    rw [hnone] at h
    exact Option.noConfusion h
  | some line =>
    by_cases hne : line = ""
    · subst hne
      have hnone : getHeadingPrefixRange doc heading = none := by
        simp [getHeadingPrefixRange, hg]
      rw [hnone] at h
      exact Option.noConfusion h
    · have heq := getHeadingPrefixRange_eq doc heading line hg hne
      rw [heq] at h
      exact ⟨line, rfl, hne, (Option.some_inj.mp h).symm⟩

/-- replaceRangeSafely on a single-line range, as an exact equation: the
edit is pushed precisely when the text standing in the range differs from
the replacement. -/
theorem replaceRangeSafely_line_eq (doc : Doc) (changes : List EditChange) (l m : Nat)
    (text : String) :
    replaceRangeSafely doc changes ⟨⟨l, 0⟩, ⟨l, m⟩⟩ text =
      if (lineAt doc l).data.take m = text.data then changes
      else changes ++ [⟨text, ⟨l, 0⟩, ⟨l, m⟩⟩] := by
  unfold replaceRangeSafely
  have hrange : getRange doc ⟨l, 0⟩ ⟨l, m⟩ = String.mk ((lineAt doc l).data.take m) := by
    unfold getRange
    simp
  rw [hrange]
  by_cases he : String.mk ((lineAt doc l).data.take m) = text
  · have hd : (lineAt doc l).data.take m = text.data := by
      have hq := congrArg String.data he
      simpa using hq
    rw [if_neg (by simp [he]), if_pos hd]
  · have hd : ¬ (lineAt doc l).data.take m = text.data := by
      intro hx
      apply he
      cases text with
      | mk d => exact congrArg String.mk hx
    rw [if_pos he, if_neg hd]

/-- Claim C8.  On an excluded heading the step never aborts and leaves the
stack and the previous level untouched.  When both scanner calls succeed
on the line, the step replaces the full-prefix range with the marker run
followed by one space: it appends exactly that edit whenever the text
standing in the range differs from the replacement (so an existing
numbering prefix is stripped), and appends nothing exactly when the range
already holds the stripped text; when a scanner call fails, it appends
nothing. -/
theorem excluded_strip_frame (doc : Doc) (settings : PluginSettings) (st : EngineState)
    (heading : Heading) (hex : excludedB settings heading.level = true) :
    ∃ st', updateStep doc settings st heading = some st' ∧
      st'.previousLevel = st.previousLevel ∧
      st'.numberingStack = st.numberingStack ∧
      ((∃ line hh, getLine doc heading.line = some line ∧
          makeHeadingHashString doc heading = some hh ∧
          getHeadingPrefixRange doc heading =
            some ⟨⟨heading.line, 0⟩, ⟨heading.line, (fullMatchLen line.data).getD 0⟩⟩ ∧
          (if line.data.take ((fullMatchLen line.data).getD 0) = (hh ++ " ").data then
            st'.changes = st.changes
          else
            st'.changes = st.changes ++
              [⟨hh ++ " ", ⟨heading.line, 0⟩,
                ⟨heading.line, (fullMatchLen line.data).getD 0⟩⟩])) ∨
        ((getHeadingPrefixRange doc heading = none ∨
            makeHeadingHashString doc heading = none) ∧
          st'.changes = st.changes)) := by
  cases hpr : getHeadingPrefixRange doc heading with
  | none =>
    refine ⟨st, ?_, rfl, rfl, Or.inr ⟨Or.inl rfl, rfl⟩⟩
    simp only [updateStep, hex, if_true, hpr]
  | some r =>
    obtain ⟨line, hget, hne, hrshape⟩ := getHeadingPrefixRange_shape doc heading r hpr
    cases hhs : makeHeadingHashString doc heading with
    | none =>
      refine ⟨st, ?_, rfl, rfl, Or.inr ⟨Or.inr rfl, rfl⟩⟩
      simp only [updateStep, hex, if_true, hpr, hhs]
    | some hh =>
      subst hrshape
      have hlineAt : lineAt doc heading.line = line := by
        have hget2 : doc.get? heading.line = some line := hget
        unfold lineAt
        rw [hget2]
        rfl
      refine ⟨{ previousLevel := st.previousLevel
                numberingStack := st.numberingStack
                changes := replaceRangeSafely doc st.changes
                  ⟨⟨heading.line, 0⟩, ⟨heading.line, (fullMatchLen line.data).getD 0⟩⟩
                  (hh ++ " ") }, ?_, rfl, rfl,
        Or.inl ⟨line, hh, hget, rfl, rfl, ?_⟩⟩
      · simp only [updateStep, hex, if_true, hpr, hhs]
      · by_cases hc : line.data.take ((fullMatchLen line.data).getD 0) = (hh ++ " ").data
        · rw [if_pos hc]
          show replaceRangeSafely doc st.changes _ _ = st.changes
          rw [replaceRangeSafely_line_eq, hlineAt, if_pos hc]
        · rw [if_neg hc]
          show replaceRangeSafely doc st.changes _ _ = st.changes ++ _
          rw [replaceRangeSafely_line_eq, hlineAt, if_neg hc]

/-! Numbering-token operations: the content of claim C9. -/

/-- Claim C9.  The token operations: the zeroth token is 0 under style "1"
and Z under style "A" (so that increment-then-use yields the first value),
the first token is 1 / A, next increments integers, wraps Z to A and steps
any other single uppercase letter to its successor; consequently iterating
next from the first token counts 1, 2, 3, ... under style "1" and cycles
A, B, ..., Z, A, ... under style "A". -/
theorem numberingToken_ops :
    zerothNumberingTokenInStyle "1" = .num 0 ∧
    zerothNumberingTokenInStyle "A" = .str "Z" ∧
    firstNumberingTokenInStyle "1" = .num 1 ∧
    firstNumberingTokenInStyle "A" = .str "A" ∧
    (∀ n : Int, nextNumberingToken (.num n) = .num (n + 1)) ∧
    nextNumberingToken (.str "Z") = .str "A" ∧
    (∀ c : Char, isUpperChar c = true → c ≠ 'Z' →
      nextNumberingToken (.str (String.singleton c)) =
        .str (String.singleton (Char.ofNat (c.toNat + 1)))) ∧
    (∀ k : Nat, nextNumberingToken^[k] (firstNumberingTokenInStyle "1") = .num (1 + k)) ∧
    (∀ k : Nat, nextNumberingToken^[k] (firstNumberingTokenInStyle "A") =
      .str (String.singleton (Char.ofNat (65 + k % 26)))) := by
  refine ⟨by decide, by decide, by decide, by decide, fun n => rfl, by decide, ?_, ?_, ?_⟩
  · intro c _ hne
    have hcz : String.singleton c ≠ "Z" := by
      intro he
      apply hne
      have hd : c :: [] = 'Z' :: [] := by
        have hq := congrArg String.data he
        rwa [singleton_data] at hq
      injection hd with h1 h2
    simp only [nextNumberingToken]
    rw [if_neg hcz]
    simp [singleton_data]
  · intro k
    induction k with
    | zero => decide
    | succ k ih =>
      rw [Function.iterate_succ_apply', ih]
      have harm : ∀ m : Int, nextNumberingToken (.num m) = .num (m + 1) := fun m => rfl
      rw [harm]
      congr 1
  · intro k
    induction k with
    | zero => decide
    | succ k ih =>
      rw [Function.iterate_succ_apply', ih]
      obtain ⟨r, hr, hrlt⟩ : ∃ r, k % 26 = r ∧ r < 26 :=
        ⟨k % 26, rfl, Nat.mod_lt _ (by omega)⟩
      have hsucc : (k + 1) % 26 = if r = 25 then 0 else r + 1 := by
        by_cases h : r = 25
        · rw [if_pos h]
          omega
        · rw [if_neg h]
          omega
      rw [hr, hsucc]
      interval_cases r <;> decide

/-! The compact front-matter settings codec (frontMatter.ts), over the
directive value string.  The validators and the format-part grammar live in
settingsTypes.ts and textProcessing.ts, which are not part of the staged
sources, so those definitions are taken from the specification text. -/

/-- JavaScript String.prototype.split for a one-character separator. -/
def splitOnChar (sep : Char) : List Char → List (List Char)
  | [] => [[]]
  | c :: rest =>
    let r := splitOnChar sep rest
    if c = sep then [] :: r
    else
      match r with
      | [] => [[c]]
      | g :: gs => (c :: g) :: gs

/-- JavaScript String.prototype.startsWith. -/
def startsWithJs (s search : String) : Bool := search.data.isPrefixOf s.data

/-- JavaScript String.prototype.endsWith. -/
def endsWithJs (s search : String) : Bool := search.data.isSuffixOf s.data

/-- JavaScript String.prototype.substring from a nonnegative index to the
end of the string. -/
def substringFrom (s : String) (i : Nat) : String := String.mk (s.data.drop i)

/-- JavaScript parseInt in radix 10: leading whitespace skipped, one
optional sign, then the longest leading digit run; none (NaN) when that
run is empty. -/
def parseIntJs (s : String) : Option Int :=
  let cs := s.data.dropWhile isJsWs
  let neg := cs.head? == some '-'
  let rest := if cs.head? == some '-' || cs.head? == some '+' then cs.tail else cs
  let digits := rest.takeWhile isDigitChar
  if digits.isEmpty then none
  else
    let n : Nat := digits.foldl (fun a c => a * 10 + (c.toNat - 48)) 0
    some (if neg then -(n : Int) else (n : Int))

/-- Modelled from the spec: the default settings record the parser starts
from (no auto run, first level 1, max level 6, no contents marker, no
start-at override, no top-level skip, decimal styles, dot separator). -/
def DEFAULT_SETTINGS : PluginSettings :=
  { auto := false, firstLevel := 1, maxLevel := 6, contents := "", startAt := ""
    skipTopLevel := false, styleLevel1 := "1", styleLevelOther := "1", separator := "." }

/-- Modelled from the spec: a first-level or max-level value is accepted
when it is a number in the allowed range 1..6 (NaN, modelled as none, is
rejected). -/
def isValidFirstOrMaxLevel (n : Option Int) : Bool :=
  match n with
  | none => false
  | some v => 1 ≤ v && v ≤ 6

/-- Modelled from the spec: a start-at value is the empty string or one
numbering token, a digit run or a single uppercase letter. -/
def isValidNumberingValueString (s : String) : Bool :=
  s = "" || (!s.data.isEmpty && s.data.all isDigitChar) ||
    (match s.data with
     | [c] => isUpperChar c
     | _ => false)

/-- Modelled from the spec: a contents marker is accepted when it is
non-empty. -/
def isValidContents (s : String) : Bool := !s.data.isEmpty

/-- Modelled from the spec: the contents setting has a value when it is a
non-empty string. -/
def doesContentsHaveValue (s : String) : Bool := !s.data.isEmpty

/-- Modelled from the spec: the format token grammar
(underscore-dot)?(1|A).(1|A)(sep)?, where the leading underscore-dot part
sets skip-top-level, the two style letters set the two styles, and the
optional trailing separator is one of the accepted separator characters
(absent meaning the empty separator); a token that does not match the
grammar leaves the settings unchanged. -/
def updateSettingsFromFrontMatterFormatPart (part : String) (settings : PluginSettings) :
    PluginSettings :=
  let skip := startsWithJs part "_."
  let rest := if startsWithJs part "_." then substringFrom part 2 else part
  match rest.data with
  | [s1, c, s2] =>
    if (s1 = '1' || s1 = 'A') && c = '.' && (s2 = '1' || s2 = 'A') then
      { settings with
        skipTopLevel := skip
        styleLevel1 := String.singleton s1
        styleLevelOther := String.singleton s2
        separator := "" }
    else settings
  | [s1, c, s2, sep] =>
    if (s1 = '1' || s1 = 'A') && c = '.' && (s2 = '1' || s2 = 'A') && isSepChar sep then
      { settings with
        skipTopLevel := skip
        styleLevel1 := String.singleton s1
        styleLevelOther := String.singleton s2
        separator := String.singleton sep }
    else settings
  | _ => settings

/-- One comma segment of the directive string, applied to the settings
gathered so far (the loop body of parseCompactFrontMatterSettings, with
the key checks in source order). -/
def parseSettingsPart (settings : PluginSettings) (part : String) : PluginSettings :=
  let trimmedPart := trimJs part
  if trimmedPart.data.isEmpty then settings
  else if trimmedPart = "auto" then { settings with auto := true }
  else if startsWithJs trimmedPart "first-level" then
    let n := parseIntJs (substringFrom trimmedPart 12)
    if isValidFirstOrMaxLevel n then { settings with firstLevel := (n.getD 0).toNat }
    else settings
  else if startsWithJs trimmedPart "max" then
    let n := parseIntJs (substringFrom trimmedPart 4)
    if isValidFirstOrMaxLevel n then { settings with maxLevel := (n.getD 0).toNat }
    else settings
  else if startsWithJs trimmedPart "start-at" then
    let value := substringFrom trimmedPart 9
    if isValidNumberingValueString value then { settings with startAt := value }
    else settings
  else if startsWithJs trimmedPart "contents" then
    if trimmedPart.data.length ≤ 9 then settings
    else
      let tocHeading := substringFrom trimmedPart 9
      if isValidContents tocHeading then { settings with contents := tocHeading }
      else settings
  else updateSettingsFromFrontMatterFormatPart trimmedPart settings

/-- parseCompactFrontMatterSettings over the directive value string (the
front-matter lookup that produces the string is outside the model; a falsy
entry yields undefined). -/
def parseCompactFrontMatterSettings (entryString : String) : Option PluginSettings :=
  if entryString = "" then none
  else some (((splitOnChar ',' entryString.data).map String.mk).foldl
    parseSettingsPart DEFAULT_SETTINGS)

/-- settingsToCompactFrontMatterValue: the fixed-order serialization, with
no trailing comma after the final style part. -/
def settingsToCompactFrontMatterValue (settings : PluginSettings) : String :=
  let autoPart := if settings.auto then "auto, " else ""
  let firstLevelPart := "first-level " ++ toString settings.firstLevel ++ ", "
  let maxPart := "max " ++ toString settings.maxLevel ++ ", "
  let contentsPart :=
    if 0 < settings.contents.data.length then "contents " ++ settings.contents ++ ", "
    else ""
  let skipTopLevelString := if settings.skipTopLevel then "_." else ""
  let stylePart := skipTopLevelString ++ settings.styleLevel1 ++ "." ++
    settings.styleLevelOther ++ settings.separator
  let startAtPart :=
    if settings.startAt ≠ "" then "start-at " ++ settings.startAt ++ ", " else ""
  autoPart ++ firstLevelPart ++ maxPart ++ contentsPart ++ startAtPart ++ stylePart

/-- Claim C6.  Serializing the example settings record produces the
directive string of the claim, and parsing that string back reproduces the
record exactly. -/
theorem settings_codec_roundtrip :
    settingsToCompactFrontMatterValue
        ⟨true, 2, 4, "Overview", "", false, "1", "A", "."⟩ =
      "auto, first-level 2, max 4, contents Overview, 1.A." ∧
    parseCompactFrontMatterSettings "auto, first-level 2, max 4, contents Overview, 1.A." =
      some ⟨true, 2, 4, "Overview", "", false, "1", "A", "."⟩ := by
  constructor
  · decide
  · decide

/-! The table-of-contents builder (updateTableOfContents). -/

/-- cleanHeadingTextForToc: when the text holds a caret, the part before
the first caret, trimmed; otherwise the whole text, trimmed (contains
guarantees the split yields more than one part). -/
def cleanHeadingTextForToc (htext : String) : String :=
  if htext.data.contains '^' then
    trimJs (String.mk (htext.data.takeWhile (fun c => c != '^')))
  else trimJs htext

/-- createTocEntry: indent tabs from the start level up to the heading
level, the bullet marker, a space, and the wiki link whose target is the
raw text and whose label is the cleaned text. -/
def createTocEntry (h : Heading) (settings : PluginSettings) : String :=
  let text := h.heading
  let cleanText := cleanHeadingTextForToc text
  let bulletIndent := String.mk (List.replicate (h.level - startLevel settings) '\t')
  bulletIndent ++ "- " ++ ("[[#" ++ text ++ "|" ++ cleanText ++ "]]")

/-- One iteration of the heading loop of updateTableOfContents: the anchor
is the last heading whose text ends with the contents marker (recorded
before the exclusion check), and every non-excluded heading appends one
entry line to the builder. -/
def tocFoldStep (settings : PluginSettings) (acc : Option Heading × String)
    (heading : Heading) : Option Heading × String :=
  let tocHeading := if endsWithJs heading.heading settings.contents then some heading
    else acc.1
  if excludedB settings heading.level then (tocHeading, acc.2)
  else (tocHeading, acc.2 ++ createTocEntry heading settings ++ "\n")

/-- The scan for the end of the existing bullet list, fuel-indexed (the
fuel only pads the proof of termination; the loop leaves the document
after at most one step per remaining line).  Reading past the last line
resets the result to the starting line; so does meeting a heading marker
before any bullet. -/
def tocScanGo (doc : Doc) (startingLine : Nat) : Nat → Bool → Nat → Nat
  | 0, _, endingLine => endingLine
  | f + 1, foundList, endingLine =>
    match getLine doc endingLine with
    | none => startingLine
    | some line =>
      let t := (line.data.dropWhile isJsWs).head?
      if foundList then
        if t ≠ some '-' then endingLine
        else if t = some '#' then endingLine
        else tocScanGo doc startingLine f foundList (endingLine + 1)
      else
        if t = some '-' then tocScanGo doc startingLine f true (endingLine + 1)
        else if t = some '#' then startingLine
        else tocScanGo doc startingLine f foundList (endingLine + 1)

/-- The ending line of the existing bullet list after the anchor. -/
def tocScan (doc : Doc) (startingLine : Nat) : Nat :=
  tocScanGo doc startingLine (doc.length + 1) false startingLine

/-- updateTableOfContents, modelled as the list of changes of its single
transaction: none when the contents setting is empty and the function
returns at once. -/
def updateTableOfContentsChanges (doc : Doc) (headings : List Heading)
    (settings : PluginSettings) : Option (List EditChange) :=
  if doesContentsHaveValue settings.contents then
    let acc := headings.foldl (tocFoldStep settings) (none, "\n")
    match acc.1 with
    | none => some []
    | some tocHeading =>
      let startingLine := tocHeading.line + 1
      let endingLine := tocScan doc startingLine
      let tocBuilder := if acc.2 = "\n" then "" else acc.2
      some (replaceRangeSafely doc [] ⟨⟨startingLine, 0⟩, ⟨endingLine, 0⟩⟩ tocBuilder)
  else none

theorem tocScanGo_eq (doc : Doc) (startingLine f : Nat) (foundList : Bool) (e : Nat) :
    tocScanGo doc startingLine (f + 1) foundList e =
      match getLine doc e with
      | none => startingLine
      | some line =>
        if foundList then
          if (line.data.dropWhile isJsWs).head? ≠ some '-' then e
          else if (line.data.dropWhile isJsWs).head? = some '#' then e
          else tocScanGo doc startingLine f foundList (e + 1)
        else
          if (line.data.dropWhile isJsWs).head? = some '-' then
            tocScanGo doc startingLine f true (e + 1)
          else if (line.data.dropWhile isJsWs).head? = some '#' then startingLine
          else tocScanGo doc startingLine f foundList (e + 1) := rfl

theorem tocScanGo_step_none (doc : Doc) (startingLine f : Nat) (foundList : Bool) (e : Nat)
    (hg : getLine doc e = none) :
    tocScanGo doc startingLine (f + 1) foundList e = startingLine := by
  rw [tocScanGo_eq, hg]

theorem tocScanGo_step_some (doc : Doc) (startingLine f : Nat) (foundList : Bool) (e : Nat)
    (line : String) (hg : getLine doc e = some line) :
    tocScanGo doc startingLine (f + 1) foundList e =
      if foundList then
        if (line.data.dropWhile isJsWs).head? ≠ some '-' then e
        else if (line.data.dropWhile isJsWs).head? = some '#' then e
        else tocScanGo doc startingLine f foundList (e + 1)
      else
        if (line.data.dropWhile isJsWs).head? = some '-' then
          tocScanGo doc startingLine f true (e + 1)
        else if (line.data.dropWhile isJsWs).head? = some '#' then startingLine
        else tocScanGo doc startingLine f foundList (e + 1) := by
  rw [tocScanGo_eq, hg]

theorem tocScanGo_eof (doc : Doc) (startingLine : Nat)
    (hb : ∀ i < doc.length, startingLine ≤ i →
      ((lineAt doc i).data.dropWhile isJsWs).head? = some '-') :
    ∀ (f : Nat), ∀ (e : Nat) (foundList : Bool), startingLine ≤ e → doc.length ≤ e + f →
      tocScanGo doc startingLine (f + 1) foundList e = startingLine := by
  intro f
  induction f with
  | zero =>
    intro e foundList hse hlen
    exact tocScanGo_step_none doc startingLine 0 foundList e
      (by unfold getLine; exact List.get?_eq_none.mpr (by omega))
  | succ f ih =>
    intro e foundList hse hlen
    cases hg : getLine doc e with
    | none => exact tocScanGo_step_none doc startingLine (f + 1) foundList e hg
    | some line =>
      have helt : e < doc.length := by
        by_contra hc
        rw [getLine, List.get?_eq_none.mpr (by omega)] at hg
        cases hg
      have hline : lineAt doc e = line := by
        unfold getLine at hg
        unfold lineAt
        rw [hg]
        rfl
      have hhead : (line.data.dropWhile isJsWs).head? = some '-' := by
        have hx := hb e helt hse
        rwa [hline] at hx
      rw [tocScanGo_step_some doc startingLine (f + 1) foundList e line hg]
      cases foundList with
      | true =>
        rw [hhead, if_pos rfl, if_neg (by simp), if_neg (by decide)]
        exact ih (e + 1) true (by omega) (by omega)
      | false =>
        rw [hhead, if_neg (by decide : ¬ (false = true)), if_pos rfl]
        exact ih (e + 1) true (by omega) (by omega)

theorem tocScan_eof (doc : Doc) (startingLine : Nat)
    (hb : ∀ i < doc.length, startingLine ≤ i →
      ((lineAt doc i).data.dropWhile isJsWs).head? = some '-') :
    tocScan doc startingLine = startingLine := by
  unfold tocScan
  exact tocScanGo_eof doc startingLine hb doc.length startingLine false le_rfl (by omega)

theorem replaceRangeSafely_mem_pos (doc : Doc) (l : Nat) (t : String) :
    ∀ c ∈ replaceRangeSafely doc [] ⟨⟨l, 0⟩, ⟨l, 0⟩⟩ t,
      c.fromPos = ⟨l, 0⟩ ∧ c.toPos = ⟨l, 0⟩ := by
  intro c hc
  rcases replaceRangeSafely_line doc [] l 0 t with ⟨ha, _⟩ | ha
  · rw [ha] at hc
    cases hc
  · rw [ha] at hc
    simp at hc
    subst hc
    exact ⟨rfl, rfl⟩

/-- Claim C10.  When an anchor heading is recorded and every line after it
down to the end of the document is a bullet line (so the scan runs off the
end of the document), the emitted replacement — when one is emitted at
all — covers the empty range at the start of the line after the anchor:
the existing list is not replaced, the new block is inserted before it. -/
theorem toc_insert_at_anchor_on_eof (doc : Doc) (headings : List Heading)
    (settings : PluginSettings) (th : Heading)
    (hcv : doesContentsHaveValue settings.contents = true)
    (hanchor : (headings.foldl (tocFoldStep settings) (none, "\n")).1 = some th)
    (hbullets : ∀ i < doc.length, th.line + 1 ≤ i →
      ((lineAt doc i).data.dropWhile isJsWs).head? = some '-') :
    ∃ cs, updateTableOfContentsChanges doc headings settings = some cs ∧
      ∀ c ∈ cs, c.fromPos = ⟨th.line + 1, 0⟩ ∧ c.toPos = ⟨th.line + 1, 0⟩ := by
  have hscan : tocScan doc (th.line + 1) = th.line + 1 :=
    tocScan_eof doc (th.line + 1) hbullets
  simp only [updateTableOfContentsChanges, hcv, if_true, hanchor, hscan]
  exact ⟨_, rfl, replaceRangeSafely_mem_pos doc (th.line + 1) _⟩

/-! Concrete instances: the example documents and settings records of the
claims, the closed example theorem, the witnesses of the universally
quantified theorems, and the counterexamples of the corrected claims. -/

/-- The default-like settings record used by the concrete examples. -/
def stdSettings : PluginSettings :=
  ⟨false, 1, 6, "", "", false, "1", "1", "."⟩

/-- The example settings record with the top level skipped. -/
def skipSettings : PluginSettings :=
  ⟨false, 1, 6, "", "", true, "1", "1", "."⟩

/-- The example settings record with max level 1. -/
def maxOneSettings : PluginSettings :=
  ⟨false, 1, 1, "", "", false, "1", "1", "."⟩

/-- The example settings record with a contents marker. -/
def tocSettings : PluginSettings :=
  ⟨false, 1, 6, "Contents", "", false, "1", "1", "."⟩

/-- Claim C3.  On the five-heading example document under default
settings, the add-numbering run emits exactly the prefixes 1, 1.1, 1.2,
2, 2.1, each replacing the marker run and the single following space of
its line. -/
theorem numbering_example_sequence :
    updateHeadingNumberingChanges
        ["# Intro", "## Background", "## Related Work", "# Methods", "## Setup"]
        [⟨1, "Intro", 0⟩, ⟨2, "Background", 1⟩, ⟨2, "Related Work", 2⟩,
          ⟨1, "Methods", 3⟩, ⟨2, "Setup", 4⟩]
        stdSettings =
      some [⟨"# 1. ", ⟨0, 0⟩, ⟨0, 2⟩⟩, ⟨"## 1.1. ", ⟨1, 0⟩, ⟨1, 3⟩⟩,
        ⟨"## 1.2. ", ⟨2, 0⟩, ⟨2, 3⟩⟩, ⟨"# 2. ", ⟨3, 0⟩, ⟨3, 2⟩⟩,
        ⟨"## 2.1. ", ⟨4, 0⟩, ⟨4, 3⟩⟩] := by
  decide

/-- Witness for claim C2 at a concrete input: one level-1 heading. -/
theorem roundTrip_marker_witness :
    ∃ cs cs', updateHeadingNumberingChanges ["# A"] [⟨1, "A", 0⟩] stdSettings = some cs ∧
      removeHeadingNumberingChanges (applyChanges ["# A"] cs) [⟨1, "A", 0⟩] = some cs' ∧
      ∀ h ∈ ([⟨1, "A", 0⟩] : List Heading), excludedB stdSettings h.level = false →
        ∃ body : List Char,
          (lineAt (applyChanges (applyChanges ["# A"] cs) cs') h.line).data =
            (hashOfLine (lineAt ["# A"] h.line)).data ++ ' ' :: body ∧
          body.head? ≠ some ' ' :=
  roundTrip_marker ["# A"] stdSettings [⟨1, "A", 0⟩]
    (by intro h hh; simp at hh; subst hh; exact ⟨by decide, by decide⟩) (by decide) (by simp) (Or.inr (Or.inl rfl))

/-- Witness for the amended claim C4 at a concrete input. -/
theorem stackDepth_at_witness :
    ∃ st, List.foldlM (updateStep ["# T"] stdSettings) (initState stdSettings)
        (([⟨1, "T", 0⟩] : List Heading).take (0 + 1)) = some st ∧
      st.numberingStack.length + startLevel stdSettings =
        (([⟨1, "T", 0⟩] : List Heading).get ⟨0, by decide⟩).level + 1 :=
  stackDepth_at ["# T"] stdSettings [⟨1, "T", 0⟩]
    (by intro h hh; simp at hh; subst hh; exact ⟨by decide, by decide⟩) (by decide) (by simp) 0 (by decide) (by decide)

/-- Witness for the amended claim C5 at a concrete input. -/
theorem secondPass_noEdits_witness :
    ∃ cs, updateHeadingNumberingChanges ["# A"] [⟨1, "A", 0⟩] stdSettings = some cs ∧
      updateHeadingNumberingChanges (applyChanges ["# A"] cs) [⟨1, "A", 0⟩] stdSettings =
        some [] :=
  secondPass_noEdits ["# A"] stdSettings [⟨1, "A", 0⟩]
    (by intro h hh; simp at hh; subst hh; exact ⟨by decide, by decide⟩) (by decide) (by simp) (Or.inr (Or.inl rfl)) (by decide) (by decide)

/-- Witness for the amended claim C7 at a concrete input: a heading line
with no space after the marker, which the full pattern does not match. -/
theorem noMatch_empty_range_witness :
    getHeadingPrefixRange ["#Title"] ⟨1, "Title", 0⟩ = some ⟨⟨0, 0⟩, ⟨0, 0⟩⟩ ∧
    ∀ (settings : PluginSettings) (st : EngineState),
      excludedB settings 1 = false →
      markerLen ("#Title" : String).data ≠ none →
      ∃ st', updateStep ["#Title"] settings st ⟨1, "Title", 0⟩ = some st' ∧
        st'.changes = st.changes ++
          [⟨hashOfLine "#Title" ++
              makeNumberingString (adjustStack settings st.previousLevel 1
                st.numberingStack) ++ settings.separator ++ " ",
            ⟨0, 0⟩, ⟨0, 0⟩⟩] :=
  noMatch_empty_range ["#Title"] ⟨1, "Title", 0⟩ "#Title" (by decide) (by decide) (by decide)

/-- Witness for claim C8 at a concrete input: a numbered top-level heading
under skip-top-level, whose existing numbering the step strips (the range
text "# 1. " differs from the replacement "# ", so the else branch of the
conclusion applies and the strip edit is emitted). -/
theorem excluded_strip_frame_witness :
    ∃ st', updateStep ["# 1. T"] skipSettings (initState skipSettings) ⟨1, "T", 0⟩ =
        some st' ∧
      st'.previousLevel = (initState skipSettings).previousLevel ∧
      st'.numberingStack = (initState skipSettings).numberingStack ∧
      ((∃ line hh, getLine ["# 1. T"] 0 = some line ∧
          makeHeadingHashString ["# 1. T"] ⟨1, "T", 0⟩ = some hh ∧
          getHeadingPrefixRange ["# 1. T"] ⟨1, "T", 0⟩ =
            some ⟨⟨0, 0⟩, ⟨0, (fullMatchLen line.data).getD 0⟩⟩ ∧
          (if line.data.take ((fullMatchLen line.data).getD 0) = (hh ++ " ").data then
            st'.changes = (initState skipSettings).changes
          else
            st'.changes = (initState skipSettings).changes ++
              [⟨hh ++ " ", ⟨0, 0⟩, ⟨0, (fullMatchLen line.data).getD 0⟩⟩])) ∨
        ((getHeadingPrefixRange ["# 1. T"] ⟨1, "T", 0⟩ = none ∨
            makeHeadingHashString ["# 1. T"] ⟨1, "T", 0⟩ = none) ∧
          st'.changes = (initState skipSettings).changes)) :=
  excluded_strip_frame ["# 1. T"] skipSettings (initState skipSettings) ⟨1, "T", 0⟩
    (by decide)

/-- Witness for claim C10 at a concrete input: an anchor heading followed
by one bullet line reaching the end of the document. -/
theorem toc_insert_witness :
    ∃ cs, updateTableOfContentsChanges ["# Contents", "- [[#A|A]]"]
        [⟨1, "Contents", 0⟩] tocSettings = some cs ∧
      ∀ c ∈ cs, c.fromPos = ⟨1, 0⟩ ∧ c.toPos = ⟨1, 0⟩ :=
  toc_insert_at_anchor_on_eof ["# Contents", "- [[#A|A]]"] [⟨1, "Contents", 0⟩]
    tocSettings ⟨1, "Contents", 0⟩ (by decide) (by decide) (by decide)

/-- Counterexample to claim C1 as stated: a scanner failure on one heading
(the empty line 1) aborts the whole numbering run and the whole removal
run — the run over the first heading alone shows an edit had been
computed, and it is discarded, not applied. -/
theorem scanFail_counterexample :
    updateHeadingNumberingChanges ["# A", "", "# B"]
      [⟨1, "A", 0⟩, ⟨1, "", 1⟩, ⟨1, "B", 2⟩] stdSettings = none ∧
    updateHeadingNumberingChanges ["# A", "", "# B"] [⟨1, "A", 0⟩] stdSettings =
      some [⟨"# 1. ", ⟨0, 0⟩, ⟨0, 2⟩⟩] ∧
    removeHeadingNumberingChanges ["# A", "", "# B"]
      [⟨1, "A", 0⟩, ⟨1, "", 1⟩, ⟨1, "B", 2⟩] = none := by
  refine ⟨by decide, by decide, by decide⟩

/-- Counterexample to claim C4 as stated: on an excluded heading (top
level under skip-top-level) the stack is left at depth 1 although the
claimed formula demands level − startLevel + 1 = 0. -/
theorem stackDepth_counterexample :
    ((List.foldlM (updateStep ["# T"] skipSettings) (initState skipSettings)
        [⟨1, "T", 0⟩]).map (fun st => st.numberingStack.length)) = some 1 ∧
    ¬ (1 + startLevel skipSettings = 1 + 1) := by
  refine ⟨by decide, by decide⟩

/-- Counterexample to claim C5 as stated: under max level 1, the excluded
heading "## 1. 2. x" is stripped to "## 2. x" by the first run, and the
second run emits a further (non-empty) edit for it. -/
theorem secondPass_counterexample :
    updateHeadingNumberingChanges ["## 1. 2. x"] [⟨2, "x", 0⟩] maxOneSettings =
      some [⟨"## ", ⟨0, 0⟩, ⟨0, 6⟩⟩] ∧
    applyChanges ["## 1. 2. x"] [⟨"## ", ⟨0, 0⟩, ⟨0, 6⟩⟩] = ["## 2. x"] ∧
    updateHeadingNumberingChanges ["## 2. x"] [⟨2, "x", 0⟩] maxOneSettings =
      some [⟨"## ", ⟨0, 0⟩, ⟨0, 6⟩⟩] := by
  refine ⟨by decide, by decide, by decide⟩

/-- Counterexample to claim C7 as stated: on the unmatched line "#Title"
the scanner returns the empty range at column 0 (not no range), and the
numbering run emits an insertion edit for that heading instead of
skipping it. -/
theorem noMatch_counterexample :
    fullMatchLen ("#Title" : String).data = none ∧
    getHeadingPrefixRange ["#Title"] ⟨1, "Title", 0⟩ = some ⟨⟨0, 0⟩, ⟨0, 0⟩⟩ ∧
    updateHeadingNumberingChanges ["#Title"] [⟨1, "Title", 0⟩] stdSettings =
      some [⟨"# 1. ", ⟨0, 0⟩, ⟨0, 0⟩⟩] := by
  refine ⟨by decide, by decide, by decide⟩

end NumberHeadings
